import Mathlib

/-!
The shorthand parser of gh-shorthand (`parser/parser.go`)

A shallow embedding of `Parse`, `extractRepo`, `extractUser`, `extractIssue`
and `extractPath`, together with the three regular expressions they use.

Modelling conventions.

* A Go `string` is a `List Char` (`Str`). Go compares, slices and tests prefixes
  bytewise; on well-formed UTF-8 text bytewise order, prefixes and suffixes agree
  with the code-point ones, and every character class of the three regular
  expressions is ASCII.
* A Go `map[string]string` is an association list (`Table`); the order of the
  list is the (unspecified) iteration order of `range`.
* An out-of-range index or slice bound panics in Go; here it is `none`.
* `regexp` matching is leftmost-first: the match a backtracking search finds
  first. `Regexp.exec` is that backtracking search.
-/

namespace Parser

/-- Go `string`. -/
abbrev Str := List Char

/-- Go `map[string]string`. -/
abbrev Table := List (Str × Str)

/-! ## Standard-library functions used by the parser -/

/-- Go `<` on strings: lexicographic, a proper prefix is smaller. -/
def strLess : Str → Str → Bool
  | [], [] => false
  | [], _ :: _ => true
  | _ :: _, [] => false
  | a :: as, b :: bs =>
    if a.toNat < b.toNat then true
    else if b.toNat < a.toNat then false
    else strLess as bs

/-- Insertion of a key into a list sorted in descending order. -/
def insertReverse (k : Str) : List Str → List Str
  | [] => [k]
  | x :: xs => if strLess k x then x :: insertReverse k xs else k :: x :: xs

/-- Go `sort.Sort(sort.Reverse(sort.StringSlice(keys)))`: the keys in descending order. -/
def sortReverse : List Str → List Str
  | [] => []
  | k :: ks => insertReverse k (sortReverse ks)

/-- Go `strings.HasPrefix(s, prefix)`. -/
def HasPrefix (s pre : Str) : Bool := pre.isPrefixOf s

/-- Go `strings.TrimLeft(s, " ")`. -/
def TrimLeft (s : Str) : Str := s.dropWhile (fun c => c == ' ')

/-- The text after the first `sep` of `s`, when there is one. -/
def afterSep (sep : Char) : Str → Option Str
  | [] => none
  | c :: cs => if c == sep then some cs else afterSep sep cs

/-- Go `strings.SplitN(s, sep, 2)` for a one-character separator. -/
def SplitN2 (s : Str) (sep : Char) : List Str :=
  match afterSep sep s with
  | none => [s]
  | some r => [s.takeWhile (fun c => c != sep), r]

/-- Go `s[n:]`; panics when `n > len(s)`. -/
def sliceFrom (s : Str) (n : Nat) : Option Str :=
  if n ≤ s.length then some (s.drop n) else none

/-- Go `m[k]` on a map: the value stored under `k`, the empty string when absent. -/
def Table.get (m : Table) (k : Str) : Str :=
  match m.lookup k with
  | some v => v
  | none => []

/-- The keys collected by `for k := range m`. -/
def Table.keys (m : Table) : List Str := m.map Prod.fst

end Parser

/-! ## Regular expressions -/

namespace Regexp

open Parser

/-- The class `[A-Za-z0-9]`. -/
def isAlnum (c : Char) : Bool :=
  ('A'.toNat ≤ c.toNat && c.toNat ≤ 'Z'.toNat) ||
  ('a'.toNat ≤ c.toNat && c.toNat ≤ 'z'.toNat) ||
  ('0'.toNat ≤ c.toNat && c.toNat ≤ '9'.toNat)

/-- The class `[-A-Za-z0-9]`. -/
def isAlnumDash (c : Char) : Bool := c == '-' || isAlnum c

/-- The class `\w`, which in Go is the ASCII class `[0-9A-Za-z_]`. -/
def isWord (c : Char) : Bool := isAlnum c || c == '_'

/-- The class `[\w\.\-]`. -/
def isNameChar (c : Char) : Bool := isWord c || c == '.' || c == '-'

/-- The class `\d`, which in Go is `[0-9]`. -/
def isDigit (c : Char) : Bool := '0'.toNat ≤ c.toNat && c.toNat ≤ '9'.toNat

/-- The class `[1-9]`. -/
def isDigit19 (c : Char) : Bool := '1'.toNat ≤ c.toNat && c.toNat ≤ '9'.toNat

/-- The class `\s`, which in Go is `[\t\n\f\r ]`. -/
def isSpace (c : Char) : Bool :=
  c == '\t' || c == '\n' || c == Char.ofNat 12 || c == '\r' || c == ' '

/-- The class `\S`. -/
def isNonSpace (c : Char) : Bool := !isSpace c

/-- The pieces the three patterns are built from. A pattern is a sequence of them. -/
inductive Inst where
  /-- one character of a class -/
  | char (p : Char → Bool)
  /-- greedy `x*` for a class `x` -/
  | star (p : Char → Bool)
  /-- greedy `x?` for a class `x` -/
  | opt (p : Char → Bool)
  /-- the anchor `^` (no flags: beginning of text) -/
  | bot
  /-- the anchor `$` (no flags: end of text) -/
  | eot
  /-- the assertion `\b`: ASCII word boundary -/
  | wordB
  /-- a group bracket, `(` or `)`: records the current position -/
  | cap

/-- Whether the character next to a position, if any, is a word character. -/
def wordAt : Option Char → Bool
  | some c => isWord c
  | none => false

/-- Greedy `x*` followed by the continuation `k`: takes one more character of the
class when it can, and gives characters back when `k` fails further on. `pre` is
the text before the position, reversed; the second list is the text after it. -/
def starLoop {α : Type} (p : Char → Bool) (k : Str → Str → Option α) : Str → Str → Option α
  | pre, [] => k pre []
  | pre, c :: cs =>
    if p c then
      match starLoop p k (c :: pre) cs with
      | some r => some r
      | none => k pre (c :: cs)
    else k pre (c :: cs)

/-- Backtracking execution of a pattern at a position. `caps` are the positions
recorded so far, latest first. The result is the recorded positions in order,
followed by the position where the match ends. -/
def exec : List Inst → List Nat → Str → Str → Option (List Nat)
  | [], caps, pre, _ => some ((pre.length :: caps).reverse)
  | .char p :: is, caps, pre, rest =>
    match rest with
    | [] => none
    | c :: cs => if p c then exec is caps (c :: pre) cs else none
  | .star p :: is, caps, pre, rest => starLoop p (exec is caps) pre rest
  | .opt p :: is, caps, pre, rest =>
    match rest with
    | [] => exec is caps pre []
    | c :: cs =>
      if p c then
        match exec is caps (c :: pre) cs with
        | some r => some r
        | none => exec is caps pre (c :: cs)
      else exec is caps pre (c :: cs)
  | .bot :: is, caps, pre, rest => if pre.isEmpty then exec is caps pre rest else none
  | .eot :: is, caps, pre, rest => if rest.isEmpty then exec is caps pre rest else none
  | .wordB :: is, caps, pre, rest =>
    if wordAt pre.head? != wordAt rest.head? then exec is caps pre rest else none
  | .cap :: is, caps, pre, rest => exec is (pre.length :: caps) pre rest

/-- Leftmost match: the first start position, from the left, at which the pattern matches. -/
def search (re : List Inst) : Str → Str → Option (List Nat)
  | pre, [] => exec re [pre.length] pre []
  | pre, c :: cs =>
    match exec re [pre.length] pre (c :: cs) with
    | some r => some r
    | none => search re (c :: pre) cs

/-- The text between two positions of `s`. -/
def substr (s : Str) (i j : Nat) : Str := (s.take j).drop i

/-- The substrings between consecutive pairs of recorded positions. -/
def groups (s : Str) : List Nat → List Str
  | i :: j :: ps => substr s i j :: groups s ps
  | _ => []

/-- Go `re.FindStringSubmatch(s)`: the empty slice when there is no match, otherwise the
text of the match followed by the text of each group. `exec` returns the start of the
match, the bounds of the groups, and the end of the match. -/
def FindStringSubmatch (re : List Inst) (s : Str) : List Str :=
  match search re [] s with
  | none => []
  | some ps => substr s (ps.head?.getD 0) (ps.getLast?.getD 0) :: groups s ps.tail.dropLast

end Regexp

namespace Parser

open Regexp

/-- The pattern `^([A-Za-z0-9][-A-Za-z0-9]*)/([\w\.\-]+)\b`. -/
def userRepoRegexp : List Inst :=
  [.bot, .cap, .char isAlnum, .star isAlnumDash, .cap, .char (fun c => c == '/'),
   .cap, .char isNameChar, .star isNameChar, .cap, .wordB]

/-- The pattern `^#?([1-9]\d*)$`. -/
def issueRegexp : List Inst :=
  [.bot, .opt (fun c => c == '#'), .cap, .char isDigit19, .star isDigit, .cap, .eot]

/-- The pattern `^(/\S*)$`. -/
def pathRegexp : List Inst :=
  [.bot, .cap, .char (fun c => c == '/'), .star isNonSpace, .cap, .eot]

/-- The result of `Parse`. -/
structure Result where
  User : Str
  Match : Str
  Issue : Str
  Path : Str
  Query : Str
  owner : Str
  name : Str
  deriving DecidableEq

def Result.HasRepo (r : Result) : Bool := decide (r.name.length > 0)

/-- The method `SetRepo` of `parser.Result`; the error it returns is always `nil`. -/
def Result.SetRepo (r : Result) (repo : Str) : Option Result :=
  let parts := SplitN2 repo '/'
  if parts.length > 1 then do
    let p0 ← parts[0]?
    let p1 ← parts[1]?
    pure { r with owner := p0, name := p1 }
  else pure r

def Result.Repo (r : Result) : Str :=
  if r.HasRepo then r.owner ++ "/".toList ++ r.name else []

/-- The method `Annotation` of `parser.Result`: the matched shorthand, and the issue if
there is one. -/
def Result.Annotation (r : Result) : Str :=
  if r.Match.length > 0 then
    " (".toList ++ r.Match ++ (if r.Issue.length > 0 then "#".toList ++ r.Issue else []) ++
      ")".toList
  else []

/-- The loop of `extractRepo` over the sorted keys. -/
def repoLoop (repoMap : Table) (input : Str) : List Str → Option (Option (Str × Str × Str × Str))
  | [] => some none
  | k :: ks =>
    if HasPrefix input k then
      let parts := SplitN2 (repoMap.get k) '/'
      if parts.length > 1 then do
        let p0 ← parts[0]?
        let p1 ← parts[1]?
        let rest ← sliceFrom input k.length
        pure (some (p0, p1, k, TrimLeft rest))
      else repoLoop repoMap input ks
    else repoLoop repoMap input ks

def extractRepo (repoMap : Table) (input : Str) : Option (Str × Str × Str × Str) := do
  let keys := sortReverse repoMap.keys
  match ← repoLoop repoMap input keys with
  | some r => pure r
  | none =>
    let result := FindStringSubmatch userRepoRegexp input
    if result.length > 0 then do
      let repo ← result[0]?
      let owner ← result[1]?
      let name ← result[2]?
      let rest ← sliceFrom input repo.length
      pure (owner, name, [], TrimLeft rest)
    else pure ([], [], [], input)

/-- The loop of `extractUser` over the sorted keys. -/
def userLoop (userMap : Table) (input : Str) : List Str → Option (Option (Str × Str × Str))
  | [] => some none
  | k :: ks =>
    if HasPrefix input k then do
      let rest ← sliceFrom input k.length
      pure (some (userMap.get k, k, TrimLeft rest))
    else userLoop userMap input ks

def extractUser (userMap : Table) (input : Str) : Option (Str × Str × Str) := do
  let keys := sortReverse userMap.keys
  match ← userLoop userMap input keys with
  | some r => pure r
  | none => pure ([], [], input)

def extractIssue (query : Str) : Option (Str × Str) := do
  let m := FindStringSubmatch issueRegexp query
  if m.length > 0 then do
    let issue ← m[1]?
    pure (issue, [])
  else pure ([], query)

def extractPath (query : Str) : Option (Str × Str) := do
  let m := FindStringSubmatch pathRegexp query
  if m.length > 0 then do
    let path ← m[1]?
    pure (path, [])
  else pure ([], query)

def Parse (repoMap userMap : Table) (input : Str) : Option Result := do
  let (owner, name, mtch, query) ← extractRepo repoMap input
  let (user, owner, mtch, query) ←
    if name.length == 0 then do
      let (owner, mtch, query) ← extractUser userMap input
      pure (owner, owner, mtch, query)
    else pure ([], owner, mtch, query)
  let (issue, query) ← extractIssue query
  let (path, query) ←
    if issue == [] then extractPath query else pure ([], query)
  pure { owner := owner, name := name, User := user, Match := mtch,
         Issue := issue, Path := path, Query := query }

end Parser

/-! ## The result types of `pkg/parser/result.go` -/

namespace PkgParser

open Parser

/-- The type `NewResult`: a result from the new parser. -/
structure NewResult where
  User : Str
  Name : Str
  UserShorthand : Str
  RepoShorthand : Str
  Issue : Str
  Path : Str
  Query : Str
  deriving DecidableEq

/-- The method `SetRepo` overrides owner and name on the result from an `owner/name`
string. -/
def NewResult.SetRepo (r : NewResult) (repo : Str) : Option NewResult := do
  let parts := SplitN2 repo '/'
  let p0 ← parts[0]?
  let r1 := { r with User := p0 }
  if parts.length > 1 then do
    let p1 ← parts[1]?
    pure { r1 with Name := p1 }
  else pure r1

def NewResult.HasRepo (r : NewResult) : Bool :=
  decide (r.User.length > 0) && decide (r.Name.length > 0)

def NewResult.HasUser (r : NewResult) : Bool := decide (r.User.length > 0)

def NewResult.HasIssue (r : NewResult) : Bool := decide (r.Issue.length > 0)

def NewResult.HasPath (r : NewResult) : Bool := decide (r.Path.length > 0)

def NewResult.HasQuery (r : NewResult) : Bool := decide (r.Query.length > 0)

def NewResult.Repo (r : NewResult) : Str :=
  if r.HasRepo then r.User ++ "/".toList ++ r.Name else []

def NewResult.Annotation (r : NewResult) : Str :=
  if r.RepoShorthand.length > 0 then
    " (".toList ++ r.RepoShorthand ++ (if r.HasIssue then "#".toList ++ r.Issue else []) ++
      ")".toList
  else if r.UserShorthand.length > 0 then " (".toList ++ r.UserShorthand ++ ")".toList
  else []

/-- The type `Result` of `pkg/parser`. -/
structure Result where
  User : Str
  Name : Str
  RepoMatch : Str
  UserMatch : Str
  Query : Str
  deriving DecidableEq

def Result.HasOwner (r : Result) : Bool := decide (r.User.length > 0)

def Result.HasRepo (r : Result) : Bool :=
  decide (r.User.length > 0) && decide (r.Name.length > 0)

def Result.Repo (r : Result) : Str :=
  if r.HasRepo then r.User ++ "/".toList ++ r.Name else []

/-- The method `SetRepo` of `pkg/parser` `Result`: indexes both parts without a length
check. -/
def Result.SetRepo (r : Result) (repo : Str) : Option Result := do
  let parts := SplitN2 repo '/'
  let p0 ← parts[0]?
  let p1 ← parts[1]?
  pure { r with User := p0, Name := p1 }

def Result.RepoAnnotation (r : Result) : Str :=
  if r.RepoMatch.length > 0 then " (".toList ++ r.RepoMatch ++ ")".toList
  else if r.UserMatch.length > 0 then " (".toList ++ r.UserMatch ++ ")".toList
  else []

def Result.EmptyQuery (r : Result) : Bool := decide (r.Query.length = 0)

end PkgParser

/-! ## Closed forms of the three patterns

What each pattern matches, written without the matching engine. The theorems
`findStringSubmatch_userRepo`, `findStringSubmatch_issue` and
`findStringSubmatch_path` below prove that the engine computes exactly these. -/

namespace Parser

open Regexp

/-- A string of the form `[1-9]\d*`. -/
def isIssueNumber : Str → Bool
  | [] => false
  | c :: cs => isDigit19 c && cs.all isDigit

/-- The string without its leading `#`, if it has one. -/
def stripHash : Str → Str
  | [] => []
  | c :: cs => if c == '#' then cs else c :: cs

/-- Closed form of `issueRegexp.FindStringSubmatch`. -/
def issueMatch (q : Str) : List Str :=
  if isIssueNumber (stripHash q) then [q, stripHash q] else []

/-- A string of the form `/\S*`. -/
def isPath : Str → Bool
  | [] => false
  | c :: cs => c == '/' && cs.all isNonSpace

/-- Closed form of `pathRegexp.FindStringSubmatch`. -/
def pathMatch (q : Str) : List Str :=
  if isPath q then [q, q] else []

/-- The string without its trailing non-word characters. -/
def rstripNonWord : Str → Str
  | [] => []
  | c :: cs =>
    match rstripNonWord cs with
    | [] => if isWord c then [c] else []
    | d :: ds => c :: d :: ds

/-- The owner and the name that `userRepoRegexp` captures, if it matches: the owner is the
longest run of `[-A-Za-z0-9]` at the start, which must start with `[A-Za-z0-9]` and be
followed by a slash; the name is the longest run of `[\w.-]` after the slash, without the
trailing characters that are not word characters, and must not be empty. -/
def literalRepo : Str → Option (Str × Str)
  | [] => none
  | c :: cs =>
    if isAlnum c then
      match cs.dropWhile isAlnumDash with
      | [] => none
      | s :: r =>
        if s == '/' then
          match rstripNonWord (r.takeWhile isNameChar) with
          | [] => none
          | n :: ns => some (c :: cs.takeWhile isAlnumDash, n :: ns)
        else none
    else none

/-- Closed form of the issue-then-path step of `Parse`: the issue, the path and the rest. -/
def issuePath (q : Str) : Str × Str × Str :=
  if isIssueNumber (stripHash q) then (stripHash q, [], [])
  else if isPath q then ([], q, [])
  else ([], [], q)

/-- Closed form of `userRepoRegexp.FindStringSubmatch`. -/
def userRepoMatch (input : Str) : List Str :=
  match literalRepo input with
  | none => []
  | some (o, n) => [o ++ '/' :: n, o, n]

end Parser

/-! ## Reference definitions, in the words of the specification -/

namespace Parser

open Regexp

/-- An issue number as the specification words it: a non-empty string of decimal digits
whose first digit is not `0`. -/
def IsIssueNumeral (d : Str) : Prop :=
  d ≠ [] ∧ (∀ x ∈ d, isDigit x = true) ∧ d.head? ≠ some '0'

/-- A whitespace character in the sense of the Unicode property `White_Space`, which is what
Go `unicode.IsSpace` tests: the class `\s` of a pattern is only a part of it. -/
def isUnicodeSpace (c : Char) : Bool :=
  (9 ≤ c.toNat && c.toNat ≤ 13) || c.toNat == 32 || c.toNat == 0x85 || c.toNat == 0xA0 ||
  c.toNat == 0x1680 || (0x2000 ≤ c.toNat && c.toNat ≤ 0x200A) || c.toNat == 0x2028 ||
  c.toNat == 0x2029 || c.toNat == 0x202F || c.toNat == 0x205F || c.toNat == 0x3000

/-- Reference rendering of the annotation, as the specification words it: with a repo
shorthand, the shorthand and the issue if there is one; otherwise with a user shorthand,
that shorthand alone; otherwise nothing. -/
def annotationSpec (repoMatch userMatch issue : Str) : Str :=
  if repoMatch ≠ [] then
    " (".toList ++ repoMatch ++ (if issue ≠ [] then "#".toList ++ issue else []) ++ ")".toList
  else if userMatch ≠ [] then " (".toList ++ userMatch ++ ")".toList
  else []

end Parser

/-! ## String order and the descending sort -/

namespace Parser

theorem strLess_irrefl (a : Str) : strLess a a = false := by
  induction a with
  | nil => rfl
  | cons c cs ih => simp [strLess, ih]

theorem strLess_asymm : ∀ (a b : Str), strLess a b = true → strLess b a = false
  | [], [], h => by simp [strLess] at h
  | [], _ :: _, _ => by simp [strLess]
  | _ :: _, [], h => by simp [strLess] at h
  | a :: as, b :: bs, h => by
    simp only [strLess] at h ⊢
    by_cases h1 : a.toNat < b.toNat
    · have h2 : ¬ b.toNat < a.toNat := by omega
      simp [h1, h2]
    · by_cases h2 : b.toNat < a.toNat
      · simp [h1, h2] at h
      · simp only [h1, h2, if_false] at h ⊢
        exact strLess_asymm as bs h

/-- Transitivity of `≥`. -/
theorem strLess_false_trans : ∀ (a b c : Str),
    strLess a b = false → strLess b c = false → strLess a c = false
  | [], [], _, _, h2 => h2
  | [], _ :: _, _, h1, _ => by simp [strLess] at h1
  | _ :: _, [], [], _, _ => by simp [strLess]
  | _ :: _, [], _ :: _, _, h2 => by simp [strLess] at h2
  | _ :: _, _ :: _, [], _, _ => by simp [strLess]
  | a :: as, b :: bs, c :: cs, h1, h2 => by
    simp only [strLess] at h1 h2 ⊢
    by_cases hab : a.toNat < b.toNat
    · simp [hab] at h1
    · by_cases hbc : b.toNat < c.toNat
      · simp [hbc] at h2
      · by_cases hba : b.toNat < a.toNat
        · have hac : ¬ a.toNat < c.toNat := by omega
          have hca : c.toNat < a.toNat := by omega
          simp [hac, hca]
        · by_cases hcb : c.toNat < b.toNat
          · have hac : ¬ a.toNat < c.toNat := by omega
            have hca : c.toNat < a.toNat := by omega
            simp [hac, hca]
          · have hac : ¬ a.toNat < c.toNat := by omega
            have hca : ¬ c.toNat < a.toNat := by omega
            simp only [hab, hba, hbc, hcb, hac, hca, if_false] at h1 h2 ⊢
            exact strLess_false_trans as bs cs h1 h2

/-- A proper prefix is smaller. -/
theorem strLess_of_shorter : ∀ (a b : Str), a <+: b → a.length < b.length → strLess a b = true
  | [], [], _, h => by simp at h
  | [], _ :: _, _, _ => by simp [strLess]
  | _ :: _, [], h, _ => by simp at h
  | a :: as, b :: bs, h, hl => by
    rw [List.cons_prefix_cons] at h
    obtain ⟨rfl, h⟩ := h
    simp only [strLess, Nat.lt_irrefl, if_false]
    exact strLess_of_shorter as bs h (by simpa using hl)

/-- Of two prefixes of one string, the one that is not smaller is at least as long. -/
theorem length_le_of_strLess_false {k m input : Str} (hk : k <+: input) (hm : m <+: input)
    (h : strLess m k = false) : k.length ≤ m.length := by
  by_contra hlt
  have hlt : m.length < k.length := by omega
  have hpre : m <+: k := List.prefix_of_prefix_length_le hm hk (by omega)
  rw [strLess_of_shorter m k hpre hlt] at h
  exact Bool.noConfusion h

/-- Two prefixes of one string of the same length are equal. -/
theorem eq_of_prefix_of_length_eq {k m input : Str} (hk : k <+: input) (hm : m <+: input)
    (h : k.length = m.length) : k = m :=
  List.IsPrefix.eq_of_length (List.prefix_of_prefix_length_le hk hm (by omega)) h

theorem mem_insertReverse (k y : Str) (xs : List Str) :
    y ∈ insertReverse k xs ↔ y = k ∨ y ∈ xs := by
  induction xs with
  | nil => simp [insertReverse]
  | cons x xs ih =>
    unfold insertReverse
    split
    · simp only [List.mem_cons, ih]; tauto
    · simp only [List.mem_cons]

theorem mem_sortReverse (y : Str) (l : List Str) : y ∈ sortReverse l ↔ y ∈ l := by
  induction l with
  | nil => simp [sortReverse]
  | cons x xs ih => simp only [sortReverse, mem_insertReverse, ih, List.mem_cons]

theorem pairwise_insertReverse (k : Str) (xs : List Str)
    (h : xs.Pairwise (fun a b => strLess a b = false)) :
    (insertReverse k xs).Pairwise (fun a b => strLess a b = false) := by
  induction xs with
  | nil => simp [insertReverse]
  | cons x xs ih =>
    rw [List.pairwise_cons] at h
    unfold insertReverse
    split
    next hlt =>
      rw [List.pairwise_cons]
      refine ⟨fun y hy => ?_, ih h.2⟩
      rcases (mem_insertReverse k y xs).1 hy with rfl | hy
      · exact strLess_asymm _ _ hlt
      · exact h.1 y hy
    next hge =>
      have hge : strLess k x = false := by simpa using hge
      rw [List.pairwise_cons]
      refine ⟨fun y hy => ?_, List.pairwise_cons.2 h⟩
      rcases List.mem_cons.1 hy with rfl | hy
      · exact hge
      · exact strLess_false_trans k x y hge (h.1 y hy)

theorem perm_insertReverse (k : Str) (xs : List Str) : (insertReverse k xs).Perm (k :: xs) := by
  induction xs with
  | nil => exact List.Perm.refl _
  | cons x xs ih =>
    unfold insertReverse
    split
    · exact (List.Perm.cons x ih).trans (List.Perm.swap k x xs)
    · exact List.Perm.refl _

/-- Sorting neither drops nor adds a key. -/
theorem perm_sortReverse (l : List Str) : (sortReverse l).Perm l := by
  induction l with
  | nil => exact List.Perm.refl _
  | cons x xs ih => exact (perm_insertReverse x _).trans (List.Perm.cons x ih)

/-- The sorted keys are in descending order. -/
theorem pairwise_sortReverse (l : List Str) :
    (sortReverse l).Pairwise (fun a b => strLess a b = false) := by
  induction l with
  | nil => simp [sortReverse]
  | cons x xs ih => exact pairwise_insertReverse x _ ih

/-- Among the members of a list that satisfy `P`, one is longest. -/
theorem exists_longest (P : Str → Prop) : ∀ (l : List Str), (∃ k ∈ l, P k) →
    ∃ m ∈ l, P m ∧ ∀ k ∈ l, P k → k.length ≤ m.length
  | [], h => by simp at h
  | x :: xs, _ => by
    by_cases hxs : ∃ k ∈ xs, P k
    · obtain ⟨m, hm, hPm, hmax⟩ := exists_longest P xs hxs
      by_cases hx : P x ∧ m.length < x.length
      · refine ⟨x, List.mem_cons_self _ _, hx.1, fun k hk hPk => ?_⟩
        rcases List.mem_cons.1 hk with rfl | hk
        · exact le_refl _
        · exact le_trans (hmax k hk hPk) (le_of_lt hx.2)
      · refine ⟨m, List.mem_cons_of_mem _ hm, hPm, fun k hk hPk => ?_⟩
        rcases List.mem_cons.1 hk with rfl | hk
        · by_contra hlt
          exact hx ⟨hPk, by omega⟩
        · exact hmax k hk hPk
    · rename_i h
      obtain ⟨k, hk, hPk⟩ := h
      rcases List.mem_cons.1 hk with rfl | hk
      · refine ⟨k, List.mem_cons_self _ _, hPk, fun k' hk' hPk' => ?_⟩
        rcases List.mem_cons.1 hk' with rfl | hk'
        · exact le_refl _
        · exact absurd ⟨k', hk', hPk'⟩ hxs
      · exact absurd ⟨k, hk, hPk⟩ hxs

end Parser

/-! ## The matching engine on the three patterns -/

namespace Regexp

open Parser

/-- A pattern that starts with `^` can only match at the start of the text. -/
theorem search_bot_cons (is : List Inst) (c : Char) (pre rest : Str) :
    search (.bot :: is) (c :: pre) rest = none := by
  induction rest generalizing c pre with
  | nil => simp [search, exec]
  | cons d ds ih => simp [search, exec, ih]

theorem search_bot (is : List Inst) (s : Str) :
    search (.bot :: is) [] s = exec is [0] [] s := by
  cases s with
  | nil => simp [search, exec]
  | cons c cs =>
    simp only [search, exec, List.isEmpty_nil, if_true, List.length_nil, search_bot_cons]
    cases exec is [0] [] (c :: cs) <;> rfl

/-- When what follows `x*` cannot start with a character of the class, the star takes
the longest run and never gives a character back. -/
theorem starLoop_greedy {α : Type} (p : Char → Bool) (k : Str → Str → Option α)
    (hk : ∀ pre c cs, p c = true → k pre (c :: cs) = none) (pre rest : Str) :
    starLoop p k pre rest = k ((rest.takeWhile p).reverse ++ pre) (rest.dropWhile p) := by
  induction rest generalizing pre with
  | nil => simp [starLoop]
  | cons c cs ih =>
    by_cases hc : p c = true
    · simp only [starLoop, hc, if_true, List.takeWhile_cons_of_pos, List.dropWhile_cons_of_pos,
        List.reverse_cons, List.append_assoc, List.singleton_append, ih, hk pre c cs hc]
      cases k ((List.takeWhile p cs).reverse ++ c :: pre) (List.dropWhile p cs) <;> rfl
    · simp [starLoop, hc]

theorem substr_zero_append (a b : Str) : substr (a ++ b) 0 a.length = a := by
  simp [substr]

theorem substr_append_append (a b c : Str) :
    substr (a ++ (b ++ c)) a.length (a.length + b.length) = b := by
  simp [substr, List.take_append_eq_append_take, List.drop_append_eq_append_drop]

end Regexp
namespace Regexp

open Parser

theorem exec_char_nil (p : Char → Bool) (is : List Inst) (caps : List Nat) (pre : Str) :
    exec (.char p :: is) caps pre [] = none := rfl

theorem exec_char_cons (p : Char → Bool) (is : List Inst) (caps : List Nat) (pre : Str)
    (c : Char) (cs : Str) :
    exec (.char p :: is) caps pre (c :: cs) = if p c then exec is caps (c :: pre) cs else none :=
  rfl

theorem exec_star (p : Char → Bool) (is : List Inst) (caps : List Nat) (pre rest : Str) :
    exec (.star p :: is) caps pre rest = starLoop p (exec is caps) pre rest := rfl

theorem exec_cap (is : List Inst) (caps : List Nat) (pre rest : Str) :
    exec (.cap :: is) caps pre rest = exec is (pre.length :: caps) pre rest := rfl

theorem exec_opt_nil (p : Char → Bool) (is : List Inst) (caps : List Nat) (pre : Str) :
    exec (.opt p :: is) caps pre [] = exec is caps pre [] := rfl

theorem exec_opt_cons (p : Char → Bool) (is : List Inst) (caps : List Nat) (pre : Str)
    (c : Char) (cs : Str) :
    exec (.opt p :: is) caps pre (c :: cs) =
      if p c then
        match exec is caps (c :: pre) cs with
        | some r => some r
        | none => exec is caps pre (c :: cs)
      else exec is caps pre (c :: cs) := rfl

theorem exec_cap_eot (caps : List Nat) (pre rest : Str) :
    exec [.cap, .eot] caps pre rest =
      if rest.isEmpty then some ((pre.length :: pre.length :: caps).reverse) else none := by
  simp [exec]

theorem takeWhile_of_dropWhile_nil {p : Char → Bool} {l : Str} (h : l.dropWhile p = []) :
    l.takeWhile p = l := by
  have := List.takeWhile_append_dropWhile p l
  rw [h, List.append_nil] at this
  exact this

theorem dropWhile_nil_iff_all (p : Char → Bool) (l : Str) :
    l.dropWhile p = [] ↔ l.all p = true := by
  simp [List.dropWhile_eq_nil_iff]

/-- The star of the path and issue patterns, which is followed by `)$`. -/
theorem starLoop_cap_eot (p : Char → Bool) (caps : List Nat) (pre rest : Str) :
    starLoop p (exec [.cap, .eot] caps) pre rest =
      if rest.all p then
        some (((pre.length + rest.length) :: (pre.length + rest.length) :: caps).reverse)
      else none := by
  rw [starLoop_greedy p _ (fun pre c cs _ => by simp [exec]), exec_cap_eot]
  by_cases h : rest.all p = true
  · have hd := (dropWhile_nil_iff_all p rest).2 h
    have ht := takeWhile_of_dropWhile_nil hd
    simp [h, hd, ht, Nat.add_comm]
  · have hd : ¬ rest.dropWhile p = [] := fun hd => h ((dropWhile_nil_iff_all p rest).1 hd)
    have : (rest.dropWhile p).isEmpty = false := by
      cases hh : rest.dropWhile p with
      | nil => exact absurd hh hd
      | cons _ _ => rfl
    simp [h, this]

end Regexp

namespace Parser

open Regexp

theorem findStringSubmatch_path (q : Str) : FindStringSubmatch pathRegexp q = pathMatch q := by
  unfold FindStringSubmatch pathRegexp pathMatch
  rw [search_bot, exec_cap]
  cases q with
  | nil => simp [exec_char_nil, isPath]
  | cons c cs =>
    rw [exec_char_cons, exec_star, starLoop_cap_eot]
    by_cases hc : (c == '/') = true
    · by_cases ha : cs.all isNonSpace = true
      · simp [hc, ha, isPath, groups, substr, Nat.add_comm]
      · simp [hc, ha, isPath]
    · simp [hc, isPath]

theorem isIssueNumber_cons_hash (cs : Str) : isIssueNumber ('#' :: cs) = false := by
  simp [isIssueNumber, isDigit19]

theorem exec_issue_digits (caps : List Nat) (pre q : Str) :
    exec [.char isDigit19, .star isDigit, .cap, .eot] caps pre q =
      if isIssueNumber q then
        some (((pre.length + q.length) :: (pre.length + q.length) :: caps).reverse)
      else none := by
  cases q with
  | nil => simp [exec_char_nil, isIssueNumber]
  | cons c cs =>
    rw [exec_char_cons, exec_star, starLoop_cap_eot]
    by_cases hc : isDigit19 c = true
    · by_cases ha : cs.all isDigit = true
      · simp [hc, ha, isIssueNumber]; omega
      · simp [hc, ha, isIssueNumber]
    · simp [hc, isIssueNumber]

theorem findStringSubmatch_issue (q : Str) : FindStringSubmatch issueRegexp q = issueMatch q := by
  unfold FindStringSubmatch issueRegexp issueMatch
  rw [search_bot]
  cases q with
  | nil => simp [exec_opt_nil, exec_cap, exec_char_nil, isIssueNumber, stripHash]
  | cons c cs =>
    rw [exec_opt_cons, exec_cap, exec_cap, exec_issue_digits, exec_issue_digits]
    by_cases hc : (c == '#') = true
    · have hc2 : c = '#' := by simpa using hc
      subst hc2
      by_cases hn : isIssueNumber cs = true
      · simp [hn, stripHash, groups, substr, Nat.add_comm]
      · simp [hn, stripHash, isIssueNumber_cons_hash]
    · have hs : stripHash (c :: cs) = c :: cs := by simp [stripHash, hc]
      by_cases hn : isIssueNumber (c :: cs) = true
      · simp [hc, hn, hs, groups, substr]
      · simp [hc, hn, hs]

end Parser
namespace Regexp

open Parser

theorem exec_cap_wordB (caps : List Nat) (pre rest : Str) :
    exec [.cap, .wordB] caps pre rest =
      if wordAt pre.head? != wordAt rest.head? then
        some ((pre.length :: pre.length :: caps).reverse)
      else none := by
  simp [exec]

theorem isWord_of_not_isNameChar {c : Char} (h : ¬ isNameChar c = true) : isWord c = false := by
  cases hw : isWord c with
  | false => rfl
  | true => exact absurd (by simp [isNameChar, hw]) h

theorem wordAt_some (c : Char) : wordAt (some c) = isWord c := rfl

theorem wordAt_none : wordAt none = false := rfl

/-- The star of the name, which is followed by `)\b`: the star gives back the trailing
characters of the run that are not word characters. -/
theorem starLoop_name (caps : List Nat) (pre rest : Str) :
    starLoop isNameChar (exec [.cap, .wordB] caps) pre rest =
      if 0 < (rstripNonWord (rest.takeWhile isNameChar)).length ∨ wordAt pre.head? = true then
        some (((pre.length + (rstripNonWord (rest.takeWhile isNameChar)).length) ::
          (pre.length + (rstripNonWord (rest.takeWhile isNameChar)).length) :: caps).reverse)
      else none := by
  induction rest generalizing pre with
  | nil =>
    simp only [starLoop, exec_cap_wordB, List.takeWhile_nil, rstripNonWord, List.head?_nil,
      wordAt_none]
    by_cases hp : wordAt pre.head? = true
    · simp [hp]
    · simp [hp]
  | cons c cs ih =>
    by_cases hc : isNameChar c = true
    · simp only [starLoop, hc, if_true, ih, List.takeWhile_cons_of_pos, exec_cap_wordB,
        List.head?_cons, wordAt_some, List.length_cons]
      cases hr : rstripNonWord (List.takeWhile isNameChar cs) with
      | nil =>
        by_cases hw : isWord c = true
        · simp [rstripNonWord, hr, hw]
        · by_cases hp : wordAt pre.head? = true
          · simp [rstripNonWord, hr, hw, hp]
          · simp [rstripNonWord, hr, hw, hp]
      | cons d ds =>
        simp [rstripNonWord, hr]
        omega
    · have hw := isWord_of_not_isNameChar hc
      simp only [starLoop, hc, exec_cap_wordB, List.head?_cons, wordAt_some, hw]
      by_cases hp : wordAt pre.head? = true
      · simp [hc, rstripNonWord, hp]
      · simp [hc, rstripNonWord, hp]

theorem rstripNonWord_initial (l : Str) : rstripNonWord l <+: l := by
  induction l with
  | nil => simp [rstripNonWord]
  | cons c cs ih =>
    unfold rstripNonWord
    split
    · split
      · simp
      · simp
    next d ds h =>
      rw [h] at ih
      exact List.cons_prefix_cons.2 ⟨rfl, ih⟩

end Regexp
namespace Parser

open Regexp

theorem not_slash_of_isAlnumDash {c : Char} (h : isAlnumDash c = true) : (c == '/') = false := by
  cases hc : (c == '/') with
  | false => rfl
  | true =>
    have : c = '/' := by simpa using hc
    subst this
    exact absurd h (by decide)

theorem substr_eq_of {s a b c : Str} (hs : s = a ++ (b ++ c)) {i j : Nat} (hi : i = a.length)
    (hj : j = a.length + b.length) : substr s i j = b := by
  subst hs hi hj
  exact substr_append_append a b c

/-- The positions the engine records for `userRepoRegexp`. -/
theorem search_userRepo (input : Str) :
    search userRepoRegexp [] input =
      match literalRepo input with
      | none => none
      | some (o, n) =>
        some [0, 0, o.length, o.length + 1, o.length + 1 + n.length, o.length + 1 + n.length] := by
  unfold userRepoRegexp
  rw [search_bot, exec_cap]
  cases input with
  | nil => simp [exec_char_nil, literalRepo]
  | cons c cs =>
    rw [exec_char_cons]
    by_cases hc : isAlnum c = true
    · rw [if_pos hc, exec_star, starLoop_greedy isAlnumDash _
        (fun pre d ds hd => by rw [exec_cap, exec_char_cons, not_slash_of_isAlnumDash hd]; rfl),
        exec_cap]
      cases hd : cs.dropWhile isAlnumDash with
      | nil => simp [exec_char_nil, literalRepo, hc, hd]
      | cons s r =>
        rw [exec_char_cons]
        by_cases hs : (s == '/') = true
        · rw [if_pos hs, exec_cap]
          cases r with
          | nil => simp [exec_char_nil, literalRepo, hc, hd, hs, rstripNonWord]
          | cons n0 r' =>
            rw [exec_char_cons]
            by_cases hn : isNameChar n0 = true
            · rw [if_pos hn, exec_star, starLoop_name]
              simp only [literalRepo, hc, hd, hs, if_true, List.takeWhile_cons_of_pos, hn,
                List.head?_cons, wordAt_some]
              cases hr : rstripNonWord (List.takeWhile isNameChar r') with
              | nil =>
                by_cases hw : isWord n0 = true
                · simp [rstripNonWord, hr, hw]
                · simp [rstripNonWord, hr, hw]
              | cons d ds =>
                simp [rstripNonWord, hr]
                omega
            · simp [hn, literalRepo, hc, hd, hs, rstripNonWord]
        · simp [hs, literalRepo, hc, hd]
    · simp [hc, literalRepo]

/-- A literal match is a prefix of the input: owner, slash, name. -/
theorem literalRepo_decomp {input o n : Str} (h : literalRepo input = some (o, n)) :
    ∃ t, input = o ++ ('/' :: n ++ t) := by
  cases input with
  | nil => simp [literalRepo] at h
  | cons c cs =>
    simp only [literalRepo] at h
    split at h
    · split at h
      · exact Option.noConfusion h
      next s r hd =>
        split at h
        next hs =>
          split at h
          · exact Option.noConfusion h
          next n0 ns hr =>
            have hs : s = '/' := by simpa using hs
            subst hs
            simp only [Option.some.injEq, Prod.mk.injEq] at h
            obtain ⟨rfl, rfl⟩ := h
            obtain ⟨t1, ht1⟩ := rstripNonWord_initial (List.takeWhile isNameChar r)
            obtain ⟨t2, ht2⟩ := List.takeWhile_prefix isNameChar (l := r)
            refine ⟨t1 ++ t2, ?_⟩
            have hcs := List.takeWhile_append_dropWhile isAlnumDash cs
            rw [hd] at hcs
            rw [hr] at ht1
            rw [← ht2, ← ht1] at hcs
            rw [List.cons_append]
            congr 1
            exact hcs.symm.trans (by simp)
        · exact Option.noConfusion h
    · exact Option.noConfusion h

theorem findStringSubmatch_userRepo (input : Str) :
    FindStringSubmatch userRepoRegexp input = userRepoMatch input := by
  unfold FindStringSubmatch userRepoMatch
  rw [search_userRepo]
  cases h : literalRepo input with
  | none => rfl
  | some p =>
    obtain ⟨o, n⟩ := p
    obtain ⟨t, ht⟩ := literalRepo_decomp h
    have h1 : substr input 0 (o.length + 1 + n.length) = o ++ '/' :: n :=
      substr_eq_of (a := []) (b := o ++ '/' :: n) (c := t) (by simp [ht]) rfl (by simp; omega)
    have h2 : substr input 0 o.length = o :=
      substr_eq_of (a := []) (b := o) (c := '/' :: n ++ t) (by simp [ht]) rfl (by simp)
    have h3 : substr input (o.length + 1) (o.length + 1 + n.length) = n :=
      substr_eq_of (a := o ++ ['/']) (b := n) (c := t) (by simp [ht]) (by simp) (by simp)
    simp [groups, h1, h2, h3]

end Parser
/-! ## The two key scans -/

namespace Parser

open Regexp

theorem hasPrefix_iff (s k : Str) : HasPrefix s k = true ↔ k <+: s := by
  simp [HasPrefix]

theorem afterSep_none_iff (sep : Char) (s : Str) : afterSep sep s = none ↔ sep ∉ s := by
  induction s with
  | nil => simp [afterSep]
  | cons c cs ih =>
    by_cases hc : c = sep
    · simp [afterSep, hc]
    · have hc2 : ¬ sep = c := fun h => hc h.symm
      simp [afterSep, hc, hc2, ih]

theorem afterSep_some (sep : Char) (s r : Str) (h : afterSep sep s = some r) :
    s = s.takeWhile (fun c => c != sep) ++ sep :: r ∧ sep ∉ s.takeWhile (fun c => c != sep) := by
  induction s with
  | nil => simp [afterSep] at h
  | cons c cs ih =>
    by_cases hc : c = sep
    · subst hc
      simp [afterSep] at h
      simp [h]
    · have hc2 : ¬ sep = c := fun h => hc h.symm
      simp only [afterSep, beq_iff_eq, hc, if_false] at h
      obtain ⟨h1, h2⟩ := ih h
      have hne : (c != sep) = true := by simpa using hc
      rw [List.takeWhile_cons_of_pos (p := fun c => c != sep) hne]
      refine ⟨?_, ?_⟩
      · rw [List.cons_append, ← h1]
      · simp [hc2, h2]

/-- Splitting to two parts with `SplitN` yields two parts exactly when the separator occurs. -/
theorem splitN2_length (s : Str) (sep : Char) : 1 < (SplitN2 s sep).length ↔ sep ∈ s := by
  unfold SplitN2
  cases h : afterSep sep s with
  | none => simpa using (afterSep_none_iff sep s).1 h
  | some r =>
    have : ¬ sep ∉ s := fun hn => by
      rw [(afterSep_none_iff sep s).2 hn] at h
      exact Option.noConfusion h
    simpa using this

/-- The two parts are the text before the first separator and the text after it. -/
theorem splitN2_of_mem (s : Str) (sep : Char) (h : sep ∈ s) :
    ∃ a b, SplitN2 s sep = [a, b] ∧ s = a ++ sep :: b ∧ sep ∉ a := by
  unfold SplitN2
  cases hr : afterSep sep s with
  | none => exact absurd h ((afterSep_none_iff sep s).1 hr)
  | some r =>
    obtain ⟨h1, h2⟩ := afterSep_some sep s r hr
    exact ⟨_, r, rfl, h1, h2⟩

/-- Trimming with `TrimLeft` removes a run of spaces and leaves no space in front. -/
theorem trimLeft_spec (s : Str) :
    (∃ n, s = List.replicate n ' ' ++ TrimLeft s) ∧ (TrimLeft s).head? ≠ some ' ' := by
  induction s with
  | nil => exact ⟨⟨0, rfl⟩, by simp [TrimLeft]⟩
  | cons c cs ih =>
    by_cases hc : c = ' '
    · subst hc
      obtain ⟨⟨n, hn⟩, h2⟩ := ih
      refine ⟨⟨n + 1, ?_⟩, ?_⟩
      · have : TrimLeft (' ' :: cs) = TrimLeft cs := by simp [TrimLeft]
        rw [this, List.replicate_succ, List.cons_append, ← hn]
      · simpa [TrimLeft] using h2
    · have : TrimLeft (c :: cs) = c :: cs := by simp [TrimLeft, hc]
      rw [this]
      exact ⟨⟨0, rfl⟩, by simp [hc]⟩

theorem sliceFrom_of_key {k input : Str} (h : k <+: input) :
    sliceFrom input k.length = some (input.drop k.length) := by
  simp [sliceFrom, h.length_le]

/-- A key that is no hit is passed over. -/
theorem repoLoop_skip (repoMap : Table) (input k : Str) (ks : List Str)
    (h : ¬ (k <+: input ∧ '/' ∈ repoMap.get k)) :
    repoLoop repoMap input (k :: ks) = repoLoop repoMap input ks := by
  by_cases hp : HasPrefix input k = true
  · have hs : ¬ '/' ∈ repoMap.get k := fun hs => h ⟨(hasPrefix_iff _ _).1 hp, hs⟩
    have hl : ¬ (SplitN2 (repoMap.get k) '/').length > 1 := fun hl =>
      hs ((splitN2_length _ _).1 hl)
    simp only [repoLoop, hp, if_true, hl, if_false]
  · simp only [repoLoop, hp]
    rfl

/-- A key that is a hit ends the scan. -/
theorem repoLoop_hit (repoMap : Table) (input k : Str) (ks : List Str) (a b : Str)
    (hp : k <+: input) (hs : SplitN2 (repoMap.get k) '/' = [a, b]) :
    repoLoop repoMap input (k :: ks) = some (some (a, b, k, TrimLeft (input.drop k.length))) := by
  simp [repoLoop, (hasPrefix_iff _ _).2 hp, hs, sliceFrom_of_key hp]

theorem repoLoop_none (repoMap : Table) (input : Str) (ks : List Str)
    (h : ∀ k ∈ ks, ¬ (k <+: input ∧ '/' ∈ repoMap.get k)) :
    repoLoop repoMap input ks = some none := by
  induction ks with
  | nil => rfl
  | cons k ks ih =>
    rw [repoLoop_skip repoMap input k ks (h k (List.mem_cons_self _ _))]
    exact ih (fun k' hk' => h k' (List.mem_cons_of_mem _ hk'))

/-- In a list ordered by `S`, the scan stops at the hit that no other hit precedes. -/
theorem repoLoop_first (repoMap : Table) (input : Str) (S : Str → Str → Prop) (m a b : Str)
    (hp : m <+: input) (hs : SplitN2 (repoMap.get m) '/' = [a, b]) :
    ∀ (ks : List Str), ks.Pairwise S → m ∈ ks →
      (∀ k ∈ ks, k <+: input → '/' ∈ repoMap.get k → k ≠ m → ¬ S k m) →
      repoLoop repoMap input ks = some (some (a, b, m, TrimLeft (input.drop m.length)))
  | [], _, hm, _ => by simp at hm
  | x :: xs, hpw, hm, hfirst => by
    by_cases hx : x = m
    · subst hx
      exact repoLoop_hit repoMap input x xs a b hp hs
    · have hm2 : m ∈ xs := by
        rcases List.mem_cons.1 hm with h | h
        · exact absurd h.symm hx
        · exact h
      rw [List.pairwise_cons] at hpw
      rw [repoLoop_skip repoMap input x xs
        (fun h => hfirst x (List.mem_cons_self _ _) h.1 h.2 hx (hpw.1 m hm2))]
      exact repoLoop_first repoMap input S m a b hp hs xs hpw.2 hm2
        (fun k hk => hfirst k (List.mem_cons_of_mem _ hk))

theorem userLoop_skip (userMap : Table) (input k : Str) (ks : List Str) (h : ¬ k <+: input) :
    userLoop userMap input (k :: ks) = userLoop userMap input ks := by
  have hp : ¬ HasPrefix input k = true := fun hp => h ((hasPrefix_iff _ _).1 hp)
  simp only [userLoop, hp]
  rfl

theorem userLoop_hit (userMap : Table) (input k : Str) (ks : List Str) (hp : k <+: input) :
    userLoop userMap input (k :: ks) =
      some (some (userMap.get k, k, TrimLeft (input.drop k.length))) := by
  simp [userLoop, (hasPrefix_iff _ _).2 hp, sliceFrom_of_key hp]

theorem userLoop_none (userMap : Table) (input : Str) (ks : List Str)
    (h : ∀ k ∈ ks, ¬ k <+: input) : userLoop userMap input ks = some none := by
  induction ks with
  | nil => rfl
  | cons k ks ih =>
    rw [userLoop_skip userMap input k ks (h k (List.mem_cons_self _ _))]
    exact ih (fun k' hk' => h k' (List.mem_cons_of_mem _ hk'))

theorem userLoop_first (userMap : Table) (input : Str) (S : Str → Str → Prop) (m : Str)
    (hp : m <+: input) :
    ∀ (ks : List Str), ks.Pairwise S → m ∈ ks →
      (∀ k ∈ ks, k <+: input → k ≠ m → ¬ S k m) →
      userLoop userMap input ks = some (some (userMap.get m, m, TrimLeft (input.drop m.length)))
  | [], _, hm, _ => by simp at hm
  | x :: xs, hpw, hm, hfirst => by
    by_cases hx : x = m
    · subst hx
      exact userLoop_hit userMap input x xs hp
    · have hm2 : m ∈ xs := by
        rcases List.mem_cons.1 hm with h | h
        · exact absurd h.symm hx
        · exact h
      rw [List.pairwise_cons] at hpw
      rw [userLoop_skip userMap input x xs
        (fun h => hfirst x (List.mem_cons_self _ _) h hx (hpw.1 m hm2))]
      exact userLoop_first userMap input S m hp xs hpw.2 hm2
        (fun k hk => hfirst k (List.mem_cons_of_mem _ hk))

/-- A shorter prefix of the input precedes a longer one in neither scan order. -/
theorem not_strLess_false_of_shorter {k m input : Str} (hk : k <+: input) (hm : m <+: input)
    (hlen : k.length ≤ m.length) (hne : k ≠ m) : ¬ strLess k m = false := by
  have hlt : k.length < m.length := by
    rcases Nat.lt_or_ge k.length m.length with h | h
    · exact h
    · exact absurd (eq_of_prefix_of_length_eq hk hm (by omega)) hne
  rw [strLess_of_shorter k m (List.prefix_of_prefix_length_le hk hm hlen) hlt]
  exact Bool.noConfusion

theorem not_length_le_of_shorter {k m input : Str} (hk : k <+: input) (hm : m <+: input)
    (hlen : k.length ≤ m.length) (hne : k ≠ m) : ¬ m.length ≤ k.length := by
  intro h
  exact hne (eq_of_prefix_of_length_eq hk hm (by omega))

end Parser
/-! ## Closed forms of the extraction functions -/

namespace Parser

open Regexp

theorem extractIssue_eq (q : Str) :
    extractIssue q =
      some (if isIssueNumber (stripHash q) then (stripHash q, []) else ([], q)) := by
  unfold extractIssue
  rw [findStringSubmatch_issue]
  unfold issueMatch
  by_cases h : isIssueNumber (stripHash q) = true
  · simp [h]
  · simp [h]

theorem extractPath_eq (q : Str) :
    extractPath q = some (if isPath q then (q, []) else ([], q)) := by
  unfold extractPath
  rw [findStringSubmatch_path]
  unfold pathMatch
  by_cases h : isPath q = true
  · simp [h]
  · simp [h]

/-- The literal pass of `extractRepo`, reached when no key of the repo table is a hit. -/
theorem extractRepo_literal (repoMap : Table) (input : Str)
    (h : repoLoop repoMap input (sortReverse repoMap.keys) = some none) :
    extractRepo repoMap input =
      some (match literalRepo input with
        | some (o, n) => (o, n, [], TrimLeft (input.drop (o.length + 1 + n.length)))
        | none => ([], [], [], input)) := by
  unfold extractRepo
  simp only [h, findStringSubmatch_userRepo, userRepoMatch, Option.bind_eq_bind,
    Option.some_bind, Option.pure_def]
  cases hl : literalRepo input with
  | none => simp
  | some p =>
    obtain ⟨o, n⟩ := p
    obtain ⟨t, ht⟩ := literalRepo_decomp hl
    have hlen : o.length + (n.length + 1) ≤ input.length := by
      rw [ht]; simp
    simp [sliceFrom, hlen, Nat.add_comm, Nat.add_left_comm]

theorem extractRepo_hit (repoMap : Table) (input : Str) (r : Str × Str × Str × Str)
    (h : repoLoop repoMap input (sortReverse repoMap.keys) = some (some r)) :
    extractRepo repoMap input = some r := by
  unfold extractRepo
  simp [h]

theorem extractUser_hit (userMap : Table) (input : Str) (r : Str × Str × Str)
    (h : userLoop userMap input (sortReverse userMap.keys) = some (some r)) :
    extractUser userMap input = some r := by
  unfold extractUser
  simp [h]

theorem extractUser_none (userMap : Table) (input : Str)
    (h : userLoop userMap input (sortReverse userMap.keys) = some none) :
    extractUser userMap input = some ([], [], input) := by
  unfold extractUser
  simp [h]

/-- The issue-then-path step of `Parse`, for any way `mk` of building the result. -/
theorem issuePath_bind {α : Type} (mk : Str → Str → Str → α) (q : Str) :
    ((extractIssue q).bind fun a =>
      if (a.1 == []) = true then (extractPath a.2).bind fun b => some (mk a.1 b.1 b.2)
      else some (mk a.1 [] a.2)) =
    some (mk (issuePath q).1 (issuePath q).2.1 (issuePath q).2.2) := by
  rw [extractIssue_eq]
  unfold issuePath
  by_cases h : isIssueNumber (stripHash q) = true
  · have hne : stripHash q ≠ [] := by
      intro he
      rw [he] at h
      simp [isIssueNumber] at h
    simp [h, hne]
  · by_cases hp : isPath q = true
    · simp [h, hp, extractPath_eq]
    · simp [h, hp, extractPath_eq]

/-- The result of `Parse` when `extractRepo` binds a name. -/
theorem parse_of_repo (repoMap userMap : Table) (input o n m q : Str)
    (h : extractRepo repoMap input = some (o, n, m, q)) (hn : n ≠ []) :
    Parse repoMap userMap input =
      some { owner := o, name := n, User := [], Match := m, Issue := (issuePath q).1,
             Path := (issuePath q).2.1, Query := (issuePath q).2.2 } := by
  unfold Parse
  cases n with
  | nil => exact absurd rfl hn
  | cons c cs =>
    simp only [h, Option.bind_eq_bind, Option.some_bind, Option.pure_def]
    exact issuePath_bind (fun i p r => (⟨[], m, i, p, r, o, c :: cs⟩ : Result)) q

/-- The result of `Parse` when `extractRepo` binds no name: the user table decides. -/
theorem parse_of_user (repoMap userMap : Table) (input o m q u m2 q2 : Str)
    (h : extractRepo repoMap input = some (o, [], m, q))
    (hu : extractUser userMap input = some (u, m2, q2)) :
    Parse repoMap userMap input =
      some { owner := u, name := [], User := u, Match := m2, Issue := (issuePath q2).1,
             Path := (issuePath q2).2.1, Query := (issuePath q2).2.2 } := by
  unfold Parse
  simp only [h, hu, Option.bind_eq_bind, Option.some_bind, Option.pure_def]
  exact issuePath_bind (fun i p r => (⟨u, m2, i, p, r, u, []⟩ : Result)) q2

/-- Both key scans return. -/
theorem repoLoop_isSome (repoMap : Table) (input : Str) (ks : List Str) :
    ∃ r, repoLoop repoMap input ks = some r := by
  induction ks with
  | nil => exact ⟨none, rfl⟩
  | cons k ks ih =>
    by_cases hk : k <+: input ∧ '/' ∈ repoMap.get k
    · obtain ⟨a, b, hs, _, _⟩ := splitN2_of_mem _ _ hk.2
      exact ⟨_, repoLoop_hit repoMap input k ks a b hk.1 hs⟩
    · rw [repoLoop_skip repoMap input k ks hk]
      exact ih

theorem userLoop_isSome (userMap : Table) (input : Str) (ks : List Str) :
    ∃ r, userLoop userMap input ks = some r := by
  induction ks with
  | nil => exact ⟨none, rfl⟩
  | cons k ks ih =>
    by_cases hk : k <+: input
    · exact ⟨_, userLoop_hit userMap input k ks hk⟩
    · rw [userLoop_skip userMap input k ks hk]
      exact ih

theorem extractRepo_isSome (repoMap : Table) (input : Str) :
    ∃ r, extractRepo repoMap input = some r := by
  obtain ⟨r, hr⟩ := repoLoop_isSome repoMap input (sortReverse repoMap.keys)
  cases r with
  | none => exact ⟨_, extractRepo_literal repoMap input hr⟩
  | some r => exact ⟨_, extractRepo_hit repoMap input r hr⟩

theorem extractUser_isSome (userMap : Table) (input : Str) :
    ∃ r, extractUser userMap input = some r := by
  obtain ⟨r, hr⟩ := userLoop_isSome userMap input (sortReverse userMap.keys)
  cases r with
  | none => exact ⟨_, extractUser_none userMap input hr⟩
  | some r => exact ⟨_, extractUser_hit userMap input r hr⟩

end Parser
/-! ## The literal pattern on an input of the form owner, slash, name, rest -/

namespace Parser

open Regexp

theorem takeWhile_append_cons_of_not {p : Char → Bool} {a : Str} {b : Char} (t : Str)
    (ha : ∀ x ∈ a, p x = true) (hb : p b = false) : (a ++ b :: t).takeWhile p = a := by
  induction a with
  | nil => simp [List.takeWhile, hb]
  | cons x xs ih =>
    have hx : p x = true := ha x (List.mem_cons_self _ _)
    rw [List.cons_append, List.takeWhile_cons_of_pos hx,
      ih (fun y hy => ha y (List.mem_cons_of_mem _ hy))]

theorem dropWhile_append_cons_of_not {p : Char → Bool} {a : Str} {b : Char} (t : Str)
    (ha : ∀ x ∈ a, p x = true) (hb : p b = false) : (a ++ b :: t).dropWhile p = b :: t := by
  induction a with
  | nil => simp [List.dropWhile, hb]
  | cons x xs ih =>
    have hx : p x = true := ha x (List.mem_cons_self _ _)
    rw [List.cons_append, List.dropWhile_cons_of_pos hx,
      ih (fun y hy => ha y (List.mem_cons_of_mem _ hy))]

theorem takeWhile_append_of_head {p : Char → Bool} {a t : Str}
    (ha : ∀ x ∈ a, p x = true) (ht : ∀ x, t.head? = some x → p x = false) :
    (a ++ t).takeWhile p = a := by
  cases t with
  | nil =>
    rw [List.append_nil]
    exact List.takeWhile_eq_self_iff.2 ha
  | cons b t => exact takeWhile_append_cons_of_not t ha (ht b rfl)

theorem rstripNonWord_of_last : ∀ (n : Str), (∀ x, n.getLast? = some x → isWord x = true) →
    rstripNonWord n = n
  | [], _ => rfl
  | [c], h => by simp [rstripNonWord, h c rfl]
  | c :: d :: ds, h => by
    have ih := rstripNonWord_of_last (d :: ds) (fun x hx => h x (by simpa using hx))
    rw [rstripNonWord, ih]

/-- The literal pattern on owner, slash, name, rest, when the name ends in a word
character and the rest does not continue the name. -/
theorem literalRepo_append (c : Char) (cs n rest : Str) (hc : isAlnum c = true)
    (hcs : ∀ x ∈ cs, isAlnumDash x = true) (hne : n ≠ [])
    (hn : ∀ x ∈ n, isNameChar x = true) (hlast : ∀ x, n.getLast? = some x → isWord x = true)
    (hrest : ∀ x, rest.head? = some x → isNameChar x = false) :
    literalRepo ((c :: cs) ++ '/' :: n ++ rest) = some (c :: cs, n) := by
  have h1 : ((cs ++ '/' :: (n ++ rest)).takeWhile isAlnumDash) = cs :=
    takeWhile_append_cons_of_not _ hcs (by decide)
  have h2 : ((cs ++ '/' :: (n ++ rest)).dropWhile isAlnumDash) = '/' :: (n ++ rest) :=
    dropWhile_append_cons_of_not _ hcs (by decide)
  have h3 : (n ++ rest).takeWhile isNameChar = n := takeWhile_append_of_head hn hrest
  have h4 := rstripNonWord_of_last n hlast
  cases n with
  | nil => exact absurd rfl hne
  | cons n0 ns =>
    simp only [List.cons_append] at h1 h2 h3
    simp only [List.cons_append, List.append_assoc, literalRepo, hc, if_true]
    rw [h2]
    simp only [beq_self_eq_true, if_true]
    rw [h1, h3, h4]

theorem length_literal (o n rest : Str) :
    (o ++ '/' :: n ++ rest).drop (o.length + 1 + n.length) = rest := by
  have : o ++ '/' :: n ++ rest = (o ++ '/' :: n) ++ rest := by simp
  rw [this]
  have hl : o.length + 1 + n.length = (o ++ '/' :: n).length := by simp; omega
  rw [hl, List.drop_left]

/-- The literal pass of `extractRepo` on owner, slash, name, rest. -/
theorem extractRepo_append (repoMap : Table) (c : Char) (cs n rest : Str)
    (hno : ∀ k ∈ repoMap.keys, ¬ (k <+: (c :: cs) ++ '/' :: n ++ rest ∧ '/' ∈ repoMap.get k))
    (hc : isAlnum c = true)
    (hcs : ∀ x ∈ cs, isAlnumDash x = true) (hne : n ≠ [])
    (hn : ∀ x ∈ n, isNameChar x = true) (hlast : ∀ x, n.getLast? = some x → isWord x = true)
    (hrest : ∀ x, rest.head? = some x → isNameChar x = false) :
    extractRepo repoMap ((c :: cs) ++ '/' :: n ++ rest) = some (c :: cs, n, [], TrimLeft rest) := by
  rw [extractRepo_literal repoMap _ (repoLoop_none repoMap _ _
    (fun k hk => hno k ((mem_sortReverse k _).1 hk))),
    literalRepo_append c cs n rest hc hcs hne hn hlast hrest]
  simp only [length_literal]

theorem trimLeft_replicate_append (k : Nat) (t : Str) (ht : t.head? ≠ some ' ') :
    TrimLeft (List.replicate k ' ' ++ t) = t := by
  induction k with
  | zero =>
    cases t with
    | nil => rfl
    | cons x xs =>
      have : x ≠ ' ' := fun h => ht (by simp [h])
      simp [TrimLeft, this]
  | succ k ih =>
    rw [List.replicate_succ, List.cons_append]
    simpa [TrimLeft] using ih

end Parser
/-! ## The claims -/

namespace Parser

open Regexp

/-- C1. Longest-match precedence of the repo-shorthand pass. When some key of the repo table
is a prefix of the input and maps to a value with a slash, `extractRepo` returns as match a
key with these two properties that is at least as long as every other such key; scanning
the keys in any order of descending length stops at the same result; the owner and the name
are the text of the value before and after its first slash; and the query is the input
without the key and without the spaces that follow it. -/
theorem extractRepo_longest_match (repoMap : Table) (input : Str)
    (h : ∃ k ∈ repoMap.keys, k <+: input ∧ '/' ∈ repoMap.get k) :
    ∃ owner name mtch query,
      extractRepo repoMap input = some (owner, name, mtch, query) ∧
      mtch ∈ repoMap.keys ∧ mtch <+: input ∧ '/' ∈ repoMap.get mtch ∧
      (∀ k ∈ repoMap.keys, k <+: input → '/' ∈ repoMap.get k → k.length ≤ mtch.length) ∧
      (∀ ks : List Str, ks.Perm repoMap.keys → ks.Pairwise (fun a b => b.length ≤ a.length) →
        repoLoop repoMap input ks = some (some (owner, name, mtch, query))) ∧
      repoMap.get mtch = owner ++ '/' :: name ∧ '/' ∉ owner ∧
      (∃ n, input = mtch ++ (List.replicate n ' ' ++ query)) ∧ query.head? ≠ some ' ' := by
  obtain ⟨m, hm, ⟨hpre, hslash⟩, hmax⟩ :=
    exists_longest (fun k => k <+: input ∧ '/' ∈ repoMap.get k) repoMap.keys h
  obtain ⟨a, b, hsplit, hval, ha⟩ := splitN2_of_mem _ _ hslash
  obtain ⟨⟨n, hn⟩, hq⟩ := trimLeft_spec (input.drop m.length)
  refine ⟨a, b, m, TrimLeft (input.drop m.length), ?_, hm, hpre, hslash,
    fun k hk h1 h2 => hmax k hk ⟨h1, h2⟩, ?_, hval, ha, ⟨n, ?_⟩, hq⟩
  · apply extractRepo_hit
    exact repoLoop_first repoMap input (fun x y => strLess x y = false) m a b hpre hsplit _
      (pairwise_sortReverse _) ((mem_sortReverse m _).2 hm)
      (fun k hk h1 h2 hne =>
        not_strLess_false_of_shorter h1 hpre (hmax k ((mem_sortReverse k _).1 hk) ⟨h1, h2⟩) hne)
  · intro ks hperm hpw
    exact repoLoop_first repoMap input (fun x y => y.length ≤ x.length) m a b hpre hsplit ks
      hpw (hperm.mem_iff.2 hm)
      (fun k hk h1 h2 hne =>
        not_length_le_of_shorter h1 hpre (hmax k (hperm.mem_iff.1 hk) ⟨h1, h2⟩) hne)
  · rw [← hn]
    exact (List.prefix_iff_eq_append.1 hpre).symm

/-- Witness of C1: the table and the input of the specification. -/
theorem extractRepo_longest_match_witness :
    (∃ k ∈ Table.keys [("a/b".toList, "o1/n1".toList), ("a/bc".toList, "o2/n2".toList)],
      k <+: "a/bc rest".toList ∧
      '/' ∈ Table.get [("a/b".toList, "o1/n1".toList), ("a/bc".toList, "o2/n2".toList)] k) ∧
    extractRepo [("a/b".toList, "o1/n1".toList), ("a/bc".toList, "o2/n2".toList)]
      "a/bc rest".toList = some ("o2".toList, "n2".toList, "a/bc".toList, "rest".toList) ∧
    ∃ owner name mtch query,
      extractRepo [("a/b".toList, "o1/n1".toList), ("a/bc".toList, "o2/n2".toList)]
        "a/bc rest".toList = some (owner, name, mtch, query) ∧
      mtch ∈ Table.keys [("a/b".toList, "o1/n1".toList), ("a/bc".toList, "o2/n2".toList)] :=
  have hyp : ∃ k ∈ Table.keys [("a/b".toList, "o1/n1".toList), ("a/bc".toList, "o2/n2".toList)],
      k <+: "a/bc rest".toList ∧
      '/' ∈ Table.get [("a/b".toList, "o1/n1".toList), ("a/bc".toList, "o2/n2".toList)] k :=
    ⟨"a/bc".toList, by decide, by decide, by decide⟩
  ⟨hyp, by decide,
    match extractRepo_longest_match _ _ hyp with
    | ⟨o, n, m, q, h1, h2, _⟩ => ⟨o, n, m, q, h1, h2⟩⟩

/-- C2, as stated, fails: on `o/n.` the name run `n.` ends in a dot, the pattern ends in
`\b`, and the code binds the name `n` and leaves the dot in the query. -/
theorem extractRepo_literal_pass_counterexample :
    isAlnum 'o' = true ∧ (∀ x ∈ "n.".toList, isNameChar x = true) ∧
    extractRepo [] ("o".toList ++ '/' :: "n.".toList ++ []) =
      some ("o".toList, "n".toList, [], ".".toList) ∧
    extractRepo [] ("o".toList ++ '/' :: "n.".toList ++ []) ≠
      some ("o".toList, "n.".toList, [], []) := by
  decide

/-- C2, amended. When no key of the repo table is a hit and the input is an owner
`[A-Za-z0-9][-A-Za-z0-9]*`, a slash, a non-empty name of characters `[A-Za-z0-9_.-]`
that ends in a word character, and a rest that does not continue the name, `extractRepo`
returns that owner and that name, an empty match, and the rest without its leading spaces. -/
theorem extractRepo_literal_pass (repoMap : Table) (c : Char) (cs n rest : Str)
    (hno : ∀ k ∈ repoMap.keys, ¬ (k <+: (c :: cs) ++ '/' :: n ++ rest ∧ '/' ∈ repoMap.get k))
    (hc : isAlnum c = true) (hcs : ∀ x ∈ cs, isAlnumDash x = true) (hne : n ≠ [])
    (hn : ∀ x ∈ n, isNameChar x = true) (hlast : ∀ x, n.getLast? = some x → isWord x = true)
    (hrest : ∀ x, rest.head? = some x → isNameChar x = false) :
    ∃ query k,
      extractRepo repoMap ((c :: cs) ++ '/' :: n ++ rest) = some (c :: cs, n, [], query) ∧
      rest = List.replicate k ' ' ++ query ∧ query.head? ≠ some ' ' := by
  obtain ⟨⟨k, hk⟩, hq⟩ := trimLeft_spec rest
  exact ⟨TrimLeft rest, k, extractRepo_append repoMap c cs n rest hno hc hcs hne hn hlast hrest,
    hk, hq⟩

/-- Witness of C2 (amended): `zero-width/gh-short.hand  x`. -/
theorem extractRepo_literal_pass_witness :
    ∃ query k,
      extractRepo [] (('z' :: "ero-width".toList) ++ '/' :: "gh-short.hand".toList ++
        "  x".toList) = some ('z' :: "ero-width".toList, "gh-short.hand".toList, [], query) ∧
      "  x".toList = List.replicate k ' ' ++ query ∧ query.head? ≠ some ' ' :=
  extractRepo_literal_pass [] 'z' "ero-width".toList "gh-short.hand".toList "  x".toList
    (by simp [Table.keys]) (by decide) (by decide) (by decide) (by decide) (by decide)
    (by decide)

/-- C4. A repo takes precedence over the user table. When `extractRepo` binds a non-empty
name, `Parse` returns the same result for any two user tables, and the `User` of that
result is empty. -/
theorem parse_repo_precedence (repoMap u1 u2 : Table) (input : Str)
    (h : ∃ o n m q, extractRepo repoMap input = some (o, n, m, q) ∧ n ≠ []) :
    Parse repoMap u1 input = Parse repoMap u2 input ∧
    ∃ r, Parse repoMap u1 input = some r ∧ r.User = [] := by
  obtain ⟨o, n, m, q, he, hn⟩ := h
  rw [parse_of_repo repoMap u1 input o n m q he hn, parse_of_repo repoMap u2 input o n m q he hn]
  exact ⟨rfl, _, rfl, rfl⟩

/-- Witness of C4: a literal `owner/name` whose owner is also a key of one user table. -/
theorem parse_repo_precedence_witness :
    Parse [] [("owner".toList, "octocat".toList)] "owner/name".toList =
      Parse [] [] "owner/name".toList ∧
    ∃ r, Parse [] [("owner".toList, "octocat".toList)] "owner/name".toList = some r ∧
      r.User = [] :=
  parse_repo_precedence [] [("owner".toList, "octocat".toList)] [] "owner/name".toList
    ⟨"owner".toList, "name".toList, [], [], by decide, by decide⟩

/-- C5, as stated, fails: with empty tables the input `#7` is parsed as an issue, and the
input `owner/name` as a repo; neither is left in the query. -/
theorem parse_empty_tables_counterexample :
    (∃ r, Parse [] [] "#7".toList = some r ∧ r.Issue = "7".toList ∧
      ¬ (r.Query = "#7".toList ∧ r.owner = [] ∧ r.name = [] ∧ r.User = [] ∧ r.Match = [] ∧
        r.Issue = [] ∧ r.Path = [])) ∧
    (∃ r, Parse [] [] "owner/name".toList = some r ∧ r.name = "name".toList ∧
      ¬ (r.Query = "owner/name".toList ∧ r.owner = [] ∧ r.name = [] ∧ r.User = [] ∧
        r.Match = [] ∧ r.Issue = [] ∧ r.Path = [])) :=
  ⟨⟨⟨[], [], "7".toList, [], [], [], []⟩, by decide, by decide, by decide⟩,
   ⟨⟨[], [], [], [], [], "owner".toList, "name".toList⟩, by decide, by decide, by decide⟩⟩

theorem literalRepo_none_of_no_match {i : Str}
    (h : FindStringSubmatch userRepoRegexp i = []) : literalRepo i = none := by
  rw [findStringSubmatch_userRepo] at h
  unfold userRepoMatch at h
  cases hl : literalRepo i with
  | none => rfl
  | some p => rw [hl] at h; simp at h

theorem issuePath_of_no_match {i : Str} (h2 : FindStringSubmatch issueRegexp i = [])
    (h3 : FindStringSubmatch pathRegexp i = []) : issuePath i = ([], [], i) := by
  rw [findStringSubmatch_issue] at h2
  rw [findStringSubmatch_path] at h3
  unfold issueMatch at h2
  unfold pathMatch at h3
  have h2 : ¬ isIssueNumber (stripHash i) = true := fun hh => by simp [hh] at h2
  have h3 : ¬ isPath i = true := fun hh => by simp [hh] at h3
  simp [issuePath, h2, h3]

/-- C5, amended. For every input that none of the three patterns (literal owner/name,
issue, path) matches, `Parse` with empty tables returns a result whose query is the input
and whose other fields are empty. -/
theorem parse_empty_tables (i : Str) (h1 : FindStringSubmatch userRepoRegexp i = [])
    (h2 : FindStringSubmatch issueRegexp i = []) (h3 : FindStringSubmatch pathRegexp i = []) :
    Parse [] [] i =
      some { User := [], Match := [], Issue := [], Path := [], Query := i, owner := [],
             name := [] } := by
  have he : extractRepo [] i = some ([], [], [], i) := by
    rw [extractRepo_literal [] i rfl, literalRepo_none_of_no_match h1]
  have hu : extractUser [] i = some ([], [], i) := extractUser_none [] i rfl
  rw [parse_of_user [] [] i [] [] i [] [] i he hu, issuePath_of_no_match h2 h3]

/-- Witness of C5 (amended): free text. -/
theorem parse_empty_tables_witness :
    Parse [] [] "hello world".toList =
      some { User := [], Match := [], Issue := [], Path := [], Query := "hello world".toList,
             owner := [], name := [] } :=
  parse_empty_tables "hello world".toList (by decide) (by decide) (by decide)

end Parser
namespace Parser

open Regexp

theorem isAlnumDash_of_isAlnum {c : Char} (h : isAlnum c = true) : isAlnumDash c = true := by
  simp [isAlnumDash, h]

theorem isWord_of_isAlnum {c : Char} (h : isAlnum c = true) : isWord c = true := by
  simp [isWord, h]

theorem isNameChar_of_isAlnum {c : Char} (h : isAlnum c = true) : isNameChar c = true := by
  simp [isNameChar, isWord, h]

theorem isDigit_range {c : Char} (h : isDigit c = true) : 48 ≤ c.toNat ∧ c.toNat ≤ 57 := by
  simpa [isDigit] using h

theorem isDigit19_range {c : Char} (h : isDigit19 c = true) : 49 ≤ c.toNat ∧ c.toNat ≤ 57 := by
  simpa [isDigit19] using h

theorem isAlnum_of_isDigit {c : Char} (h : isDigit c = true) : isAlnum c = true := by
  have := isDigit_range h
  simp [isAlnum, this.1, this.2]

theorem isDigit_of_isDigit19 {c : Char} (h : isDigit19 c = true) : isDigit c = true := by
  have := isDigit19_range h
  have h1 : 48 ≤ c.toNat := by omega
  simp [isDigit, h1, this.2]

theorem ne_space_of_isDigit19 {c : Char} (h : isDigit19 c = true) : c ≠ ' ' := by
  intro hc
  subst hc
  exact absurd h (by decide)

theorem ne_hash_of_isDigit19 {c : Char} (h : isDigit19 c = true) : c ≠ '#' := by
  intro hc
  subst hc
  exact absurd h (by decide)

/-- The issue-then-path step on an issue number, with or without `#`. -/
theorem issuePath_issue (hash : Bool) (d0 : Char) (ds : Str) (hd0 : isDigit19 d0 = true)
    (hds : ∀ x ∈ ds, isDigit x = true) :
    issuePath ((if hash then ['#'] else []) ++ d0 :: ds) = (d0 :: ds, [], []) := by
  have hnum : isIssueNumber (d0 :: ds) = true := by
    simp only [isIssueNumber, hd0, Bool.true_and]
    exact List.all_eq_true.2 hds
  cases hash with
  | true => simp [issuePath, stripHash, hnum]
  | false => simp [issuePath, stripHash, ne_hash_of_isDigit19 hd0, hnum]

/-- The issue-then-path step on a path. -/
theorem issuePath_path (ps : Str) (hps : ∀ x ∈ ps, isSpace x = false) :
    issuePath ('/' :: ps) = ([], '/' :: ps, []) := by
  have hp : isPath ('/' :: ps) = true := by
    simp only [isPath, beq_self_eq_true, Bool.true_and]
    exact List.all_eq_true.2 (fun x hx => by simp [isNonSpace, hps x hx])
  have hs : stripHash ('/' :: ps) = '/' :: ps := by simp [stripHash]
  have hi : isIssueNumber ('/' :: ps) = false := by
    simp only [isIssueNumber]
    have : isDigit19 '/' = false := by decide
    simp [this]
  simp [issuePath, hs, hi, hp]

/-- The literal pattern does not match an issue number. -/
theorem literalRepo_issue (hash : Bool) (d0 : Char) (ds : Str) (hd0 : isDigit19 d0 = true)
    (hds : ∀ x ∈ ds, isDigit x = true) :
    literalRepo ((if hash then ['#'] else []) ++ d0 :: ds) = none := by
  cases hash with
  | true =>
    have : isAlnum '#' = false := by decide
    simp [literalRepo, this]
  | false =>
    have hdrop : ds.dropWhile isAlnumDash = [] :=
      List.dropWhile_eq_nil_iff.2
        (fun x hx => isAlnumDash_of_isAlnum (isAlnum_of_isDigit (hds x hx)))
    simp [literalRepo, isAlnum_of_isDigit (isDigit_of_isDigit19 hd0), hdrop]

/-- The result of `extractRepo` with an empty repo table on owner, slash, name, spaces,
rest, for an alphanumeric owner and name. -/
theorem extractRepo_alnum (o n t : Str) (k : Nat) (ho : o ≠ [])
    (hoa : ∀ x ∈ o, isAlnum x = true) (hn : n ≠ []) (hna : ∀ x ∈ n, isAlnum x = true)
    (ht : t.head? ≠ some ' ') :
    extractRepo [] (o ++ '/' :: n ++ (List.replicate (k + 1) ' ' ++ t)) = some (o, n, [], t) := by
  cases o with
  | nil => exact absurd rfl ho
  | cons c cs =>
    have h := extractRepo_append [] c cs n (List.replicate (k + 1) ' ' ++ t)
      (by simp [Table.keys]) (hoa c (List.mem_cons_self _ _))
      (fun x hx => isAlnumDash_of_isAlnum (hoa x (List.mem_cons_of_mem _ hx))) hn
      (fun x hx => isNameChar_of_isAlnum (hna x hx))
      (fun x hx => isWord_of_isAlnum (hna x (List.mem_of_getLast?_eq_some hx)))
      (fun x hx => by
        rw [List.replicate_succ, List.cons_append, List.head?_cons] at hx
        cases hx
        decide)
    rw [trimLeft_replicate_append (k + 1) t ht] at h
    exact h

/-- C6. A literal repo followed by an issue. With empty tables, on a non-empty alphanumeric
owner, a slash, a non-empty alphanumeric name, one or more spaces, an optional `#` and a
number `[1-9][0-9]*`, `Parse` returns that owner, name and issue, and every other field
empty. -/
theorem parse_literal_repo_issue (o n ds : Str) (d0 : Char) (k : Nat) (hash : Bool)
    (ho : o ≠ []) (hoa : ∀ x ∈ o, isAlnum x = true) (hn : n ≠ [])
    (hna : ∀ x ∈ n, isAlnum x = true) (hd0 : isDigit19 d0 = true)
    (hds : ∀ x ∈ ds, isDigit x = true) :
    Parse [] [] (o ++ '/' :: n ++
        (List.replicate (k + 1) ' ' ++ ((if hash then ['#'] else []) ++ d0 :: ds))) =
      some { owner := o, name := n, Issue := d0 :: ds, Query := [], Path := [], Match := [],
             User := [] } := by
  have ht : ((if hash then ['#'] else []) ++ d0 :: ds).head? ≠ some ' ' := by
    cases hash with
    | true => simp
    | false => simpa using ne_space_of_isDigit19 hd0
  rw [parse_of_repo [] [] _ o n [] _ (extractRepo_alnum o n _ k ho hoa hn hna ht) hn,
    issuePath_issue hash d0 ds hd0 hds]

/-- Witness of C6: `owner/name #42`. -/
theorem parse_literal_repo_issue_witness :
    Parse [] [] "owner/name #42".toList =
      some { owner := "owner".toList, name := "name".toList, Issue := "42".toList, Query := [],
             Path := [], Match := [], User := [] } :=
  parse_literal_repo_issue "owner".toList "name".toList "2".toList '4' 0 true
    (by decide) (by decide) (by decide) (by decide) (by decide) (by decide)

/-- C7. A literal repo followed by a path. With empty tables, on a non-empty alphanumeric
owner, a slash, a non-empty alphanumeric name, one or more spaces and a string that starts
with a slash and has no whitespace, `Parse` returns that owner, name and path, and every
other field empty. -/
theorem parse_literal_repo_path (o n ps : Str) (k : Nat)
    (ho : o ≠ []) (hoa : ∀ x ∈ o, isAlnum x = true) (hn : n ≠ [])
    (hna : ∀ x ∈ n, isAlnum x = true) (hps : ∀ x ∈ ps, isSpace x = false) :
    Parse [] [] (o ++ '/' :: n ++ (List.replicate (k + 1) ' ' ++ '/' :: ps)) =
      some { owner := o, name := n, Path := '/' :: ps, Issue := [], Query := [], Match := [],
             User := [] } := by
  rw [parse_of_repo [] [] _ o n [] _
    (extractRepo_alnum o n ('/' :: ps) k ho hoa hn hna (by simp)) hn, issuePath_path ps hps]

/-- Witness of C7: `owner/name /pulls`. -/
theorem parse_literal_repo_path_witness :
    Parse [] [] "owner/name /pulls".toList =
      some { owner := "owner".toList, name := "name".toList, Path := "/pulls".toList,
             Issue := [], Query := [], Match := [], User := [] } :=
  parse_literal_repo_path "owner".toList "name".toList "pulls".toList 0
    (by decide) (by decide) (by decide) (by decide) (by decide)

/-- C8. Issue extraction needs no repo. For tables none of whose keys is a prefix of the
input, on an optional `#` followed by a number `[1-9][0-9]*`, `Parse` returns that issue and
every other field empty. -/
theorem parse_issue_alone (repoMap userMap : Table) (hash : Bool) (d0 : Char) (ds : Str)
    (hr : ∀ k ∈ repoMap.keys, ¬ k <+: (if hash then ['#'] else []) ++ d0 :: ds)
    (hu : ∀ k ∈ userMap.keys, ¬ k <+: (if hash then ['#'] else []) ++ d0 :: ds)
    (hd0 : isDigit19 d0 = true) (hds : ∀ x ∈ ds, isDigit x = true) :
    Parse repoMap userMap ((if hash then ['#'] else []) ++ d0 :: ds) =
      some { Issue := d0 :: ds, Query := [], owner := [], name := [], User := [], Match := [],
             Path := [] } := by
  have he : extractRepo repoMap ((if hash then ['#'] else []) ++ d0 :: ds) =
      some ([], [], [], (if hash then ['#'] else []) ++ d0 :: ds) := by
    rw [extractRepo_literal repoMap _ (repoLoop_none repoMap _ _
      (fun k hk h => hr k ((mem_sortReverse k _).1 hk) h.1)),
      literalRepo_issue hash d0 ds hd0 hds]
  have hx : extractUser userMap ((if hash then ['#'] else []) ++ d0 :: ds) =
      some ([], [], (if hash then ['#'] else []) ++ d0 :: ds) :=
    extractUser_none userMap _ (userLoop_none userMap _ _
      (fun k hk => hu k ((mem_sortReverse k _).1 hk)))
  rw [parse_of_user repoMap userMap _ _ _ _ _ _ _ he hx, issuePath_issue hash d0 ds hd0 hds]

/-- Witness of C8: `#7`, with tables whose keys are not prefixes of it. -/
theorem parse_issue_alone_witness :
    Parse [("zw".toList, "zerowidth/dotfiles".toList)] [("gh".toList, "octocat".toList)]
        "#7".toList =
      some { Issue := "7".toList, Query := [], owner := [], name := [], User := [],
             Match := [], Path := [] } :=
  parse_issue_alone [("zw".toList, "zerowidth/dotfiles".toList)]
    [("gh".toList, "octocat".toList)] true '7' [] (by decide) (by decide) (by decide)
    (by decide)

end Parser
namespace Parser

open Regexp

/-- What a hit of the repo scan returns. -/
theorem repoLoop_some_spec (repoMap : Table) (input : Str) (a b m q : Str) :
    ∀ (ks : List Str), repoLoop repoMap input ks = some (some (a, b, m, q)) →
      m ∈ ks ∧ m <+: input ∧ '/' ∈ repoMap.get m ∧ SplitN2 (repoMap.get m) '/' = [a, b] ∧
        q = TrimLeft (input.drop m.length)
  | [], h => by simp [repoLoop] at h
  | k :: ks, h => by
    by_cases hk : k <+: input ∧ '/' ∈ repoMap.get k
    · obtain ⟨a2, b2, hs, _, _⟩ := splitN2_of_mem _ _ hk.2
      rw [repoLoop_hit repoMap input k ks a2 b2 hk.1 hs] at h
      simp only [Option.some.injEq, Prod.mk.injEq] at h
      obtain ⟨rfl, rfl, rfl, rfl⟩ := h
      exact ⟨List.mem_cons_self _ _, hk.1, hk.2, hs, rfl⟩
    · rw [repoLoop_skip repoMap input k ks hk] at h
      obtain ⟨h1, h2⟩ := repoLoop_some_spec repoMap input a b m q ks h
      exact ⟨List.mem_cons_of_mem _ h1, h2⟩

/-- A literal match has a non-empty owner and a non-empty name. -/
theorem literalRepo_ne_nil {input o n : Str} (h : literalRepo input = some (o, n)) :
    o ≠ [] ∧ n ≠ [] := by
  cases input with
  | nil => simp [literalRepo] at h
  | cons c cs =>
    simp only [literalRepo] at h
    split at h
    · split at h
      · exact Option.noConfusion h
      · split at h
        · split at h
          · exact Option.noConfusion h
          · simp only [Option.some.injEq, Prod.mk.injEq] at h
            obtain ⟨rfl, rfl⟩ := h
            exact ⟨List.cons_ne_nil _ _, List.cons_ne_nil _ _⟩
        · exact Option.noConfusion h
    · exact Option.noConfusion h

/-- The owner that `extractRepo` returns with a non-empty name is not empty, unless it comes
from a value of the repo table that starts with a slash. -/
theorem extractRepo_owner_ne_nil (repoMap : Table) (input o n m q : Str)
    (hwf : ∀ k ∈ repoMap.keys, (repoMap.get k).head? ≠ some '/')
    (h : extractRepo repoMap input = some (o, n, m, q)) (hn : n ≠ []) : o ≠ [] := by
  obtain ⟨r, hr⟩ := repoLoop_isSome repoMap input (sortReverse repoMap.keys)
  cases r with
  | some r =>
    rw [extractRepo_hit repoMap input r hr] at h
    cases h
    obtain ⟨hm, _, hslash, hs, _⟩ := repoLoop_some_spec repoMap input o n m q _ hr
    obtain ⟨a, b, hs2, hval, _⟩ := splitN2_of_mem _ _ hslash
    rw [hs] at hs2
    simp only [List.cons.injEq, and_true] at hs2
    obtain ⟨rfl, rfl⟩ := hs2
    intro ho
    subst ho
    apply hwf m ((mem_sortReverse m _).1 hm)
    rw [hval]
    rfl
  | none =>
    rw [extractRepo_literal repoMap input hr] at h
    cases hl : literalRepo input with
    | none =>
      rw [hl] at h
      simp only [Option.some.injEq, Prod.mk.injEq] at h
      exact absurd h.2.1.symm hn
    | some p =>
      obtain ⟨o2, n2⟩ := p
      rw [hl] at h
      simp only [Option.some.injEq, Prod.mk.injEq] at h
      obtain ⟨rfl, _⟩ := h
      exact (literalRepo_ne_nil hl).1

/-- C9, as stated, fails in both directions: a user-shorthand match stores the user in the
owner while the name is empty, and a repo-table value that starts with a slash gives an
empty owner with a name. -/
theorem parse_owner_name_counterexample :
    (∃ r, Parse [] [("gh".toList, "octocat".toList)] "gh".toList = some r ∧
      r.Match = "gh".toList ∧ r.owner = "octocat".toList ∧ r.name = [] ∧
      ¬ ((r.owner = [] ∧ r.name = []) ∨ (r.owner ≠ [] ∧ r.name ≠ []))) ∧
    (∃ r, Parse [("x".toList, "/n".toList)] [] "x".toList = some r ∧
      r.owner = [] ∧ r.name = "n".toList ∧
      ¬ ((r.owner = [] ∧ r.name = []) ∨ (r.owner ≠ [] ∧ r.name ≠ []))) :=
  ⟨⟨⟨"octocat".toList, "gh".toList, [], [], [], "octocat".toList, []⟩,
      by decide, by decide, by decide, by decide, by decide⟩,
   ⟨⟨[], "x".toList, [], [], [], [], "n".toList⟩, by decide, by decide, by decide, by decide⟩⟩

theorem issuePath_exclusive (q : Str) : (issuePath q).1 = [] ∨ (issuePath q).2.1 = [] := by
  unfold issuePath
  by_cases h : isIssueNumber (stripHash q) = true
  · simp [h]
  · by_cases hp : isPath q = true
    · simp [h, hp]
    · simp [h, hp]

/-- C10. For every pair of tables and every input, `Parse` returns a result, and at most
one of its `Issue` and `Path` is non-empty. -/
theorem parse_issue_path_exclusive (repoMap userMap : Table) (input : Str) :
    ∃ r, Parse repoMap userMap input = some r ∧ (r.Issue = [] ∨ r.Path = []) := by
  obtain ⟨⟨o, n, m, q⟩, he⟩ := extractRepo_isSome repoMap input
  by_cases hn : n = []
  · subst hn
    obtain ⟨⟨u, m2, q2⟩, hu⟩ := extractUser_isSome userMap input
    exact ⟨_, parse_of_user repoMap userMap input o m q u m2 q2 he hu, issuePath_exclusive q2⟩
  · exact ⟨_, parse_of_repo repoMap userMap input o n m q he hn, issuePath_exclusive q⟩

end Parser

/-! ## Results that depend on the tables only through their keys and values -/

namespace Parser

open Regexp

/-- The result of `extractRepo` is fixed by a longest hit of the repo table. -/
theorem extractRepo_of_longest (repoMap : Table) (input m a b : Str)
    (hm : m ∈ repoMap.keys) (hpre : m <+: input)
    (hsplit : SplitN2 (repoMap.get m) '/' = [a, b])
    (hmax : ∀ k ∈ repoMap.keys, k <+: input → '/' ∈ repoMap.get k → k.length ≤ m.length) :
    extractRepo repoMap input = some (a, b, m, TrimLeft (input.drop m.length)) := by
  apply extractRepo_hit
  exact repoLoop_first repoMap input (fun x y => strLess x y = false) m a b hpre hsplit _
    (pairwise_sortReverse _) ((mem_sortReverse m _).2 hm)
    (fun k hk h1 h2 hne =>
      not_strLess_false_of_shorter h1 hpre (hmax k ((mem_sortReverse k _).1 hk) h1 h2) hne)

/-- The result of `extractUser` is fixed by a longest hit of the user table. -/
theorem extractUser_of_longest (userMap : Table) (input m : Str)
    (hm : m ∈ userMap.keys) (hpre : m <+: input)
    (hmax : ∀ k ∈ userMap.keys, k <+: input → k.length ≤ m.length) :
    extractUser userMap input = some (userMap.get m, m, TrimLeft (input.drop m.length)) := by
  apply extractUser_hit
  exact userLoop_first userMap input (fun x y => strLess x y = false) m hpre _
    (pairwise_sortReverse _) ((mem_sortReverse m _).2 hm)
    (fun k hk h1 hne =>
      not_strLess_false_of_shorter h1 hpre (hmax k ((mem_sortReverse k _).1 hk) h1) hne)

/-- Two repo tables whose hits and whose values on their hits agree give the same result. -/
theorem extractRepo_congr (r1 r2 : Table) (input : Str)
    (h12 : ∀ k ∈ r1.keys, k <+: input → '/' ∈ r1.get k → k ∈ r2.keys ∧ r2.get k = r1.get k)
    (h21 : ∀ k ∈ r2.keys, k <+: input → '/' ∈ r2.get k → k ∈ r1.keys ∧ r1.get k = r2.get k) :
    extractRepo r1 input = extractRepo r2 input := by
  by_cases h : ∃ k ∈ r1.keys, k <+: input ∧ '/' ∈ r1.get k
  · obtain ⟨m, hm, ⟨hpre, hslash⟩, hmax⟩ :=
      exists_longest (fun k => k <+: input ∧ '/' ∈ r1.get k) r1.keys h
    obtain ⟨a, b, hsplit, _, _⟩ := splitN2_of_mem _ _ hslash
    obtain ⟨hm2, hget⟩ := h12 m hm hpre hslash
    rw [extractRepo_of_longest r1 input m a b hm hpre hsplit
        (fun k hk h1 h2 => hmax k hk ⟨h1, h2⟩),
      extractRepo_of_longest r2 input m a b hm2 hpre (by rw [hget]; exact hsplit)
        (fun k hk h1 h2 => by
          obtain ⟨hk1, hg⟩ := h21 k hk h1 h2
          exact hmax k hk1 ⟨h1, by rw [hg]; exact h2⟩)]
  · have hno1 : ∀ k ∈ r1.keys, ¬ (k <+: input ∧ '/' ∈ r1.get k) :=
      fun k hk hh => h ⟨k, hk, hh⟩
    have hno2 : ∀ k ∈ r2.keys, ¬ (k <+: input ∧ '/' ∈ r2.get k) := fun k hk hh => by
      obtain ⟨hk1, hg⟩ := h21 k hk hh.1 hh.2
      exact hno1 k hk1 ⟨hh.1, by rw [hg]; exact hh.2⟩
    rw [extractRepo_literal r1 input (repoLoop_none r1 input _
        (fun k hk => hno1 k ((mem_sortReverse k _).1 hk))),
      extractRepo_literal r2 input (repoLoop_none r2 input _
        (fun k hk => hno2 k ((mem_sortReverse k _).1 hk)))]

/-- Two user tables whose hits and whose values on their hits agree give the same result. -/
theorem extractUser_congr (u1 u2 : Table) (input : Str)
    (h12 : ∀ k ∈ u1.keys, k <+: input → k ∈ u2.keys ∧ u2.get k = u1.get k)
    (h21 : ∀ k ∈ u2.keys, k <+: input → k ∈ u1.keys) :
    extractUser u1 input = extractUser u2 input := by
  by_cases h : ∃ k ∈ u1.keys, k <+: input
  · obtain ⟨m, hm, hpre, hmax⟩ := exists_longest (fun k => k <+: input) u1.keys h
    obtain ⟨hm2, hget⟩ := h12 m hm hpre
    rw [extractUser_of_longest u1 input m hm hpre hmax,
      extractUser_of_longest u2 input m hm2 hpre
        (fun k hk h1 => hmax k (h21 k hk h1) h1), hget]
  · have hno1 : ∀ k ∈ u1.keys, ¬ k <+: input := fun k hk hh => h ⟨k, hk, hh⟩
    have hno2 : ∀ k ∈ u2.keys, ¬ k <+: input := fun k hk hh => hno1 k (h21 k hk hh) hh
    rw [extractUser_none u1 input (userLoop_none u1 input _
        (fun k hk => hno1 k ((mem_sortReverse k _).1 hk))),
      extractUser_none u2 input (userLoop_none u2 input _
        (fun k hk => hno2 k ((mem_sortReverse k _).1 hk)))]

/-- The tables enter `Parse` only through `extractRepo` and `extractUser`. -/
theorem parse_congr (r1 r2 u1 u2 : Table) (input : Str)
    (hr : extractRepo r1 input = extractRepo r2 input)
    (hu : extractUser u1 input = extractUser u2 input) :
    Parse r1 u1 input = Parse r2 u2 input := by
  unfold Parse
  rw [hr, hu]

/-- With distinct keys, a pair of the table is what the table returns for its key. -/
theorem get_of_mem : ∀ (m : Table), m.keys.Nodup → ∀ (k v : Str), (k, v) ∈ m → m.get k = v
  | [], _, _, _, h => by simp at h
  | (k0, v0) :: rest, hnd, k, v, h => by
    have hnd2 : ¬ k0 ∈ Table.keys rest ∧ (Table.keys rest).Nodup := by
      simpa [Table.keys] using hnd
    rcases List.mem_cons.1 h with heq | hmem
    · cases heq
      simp [Table.get, List.lookup]
    · have hne : ¬ k = k0 := by
        intro hk
        subst hk
        exact hnd2.1 (List.mem_map.2 ⟨(k, v), hmem, rfl⟩)
      have ih := get_of_mem rest hnd2.2 k v hmem
      simp only [Table.get, List.lookup] at ih ⊢
      have hb : (k == k0) = false := by simpa using hne
      rw [hb]
      exact ih

/-- Two enumerations of one table with distinct keys return the same values. -/
theorem get_perm (m1 m2 : Table) (hp : m1.Perm m2) (hnd : m1.keys.Nodup) (k : Str)
    (hk : k ∈ m1.keys) : m2.get k = m1.get k := by
  obtain ⟨⟨k1, v⟩, hmem, hfst⟩ := List.mem_map.1 hk
  cases hfst
  have hnd2 : m2.keys.Nodup := (hp.map Prod.fst).nodup_iff.1 hnd
  rw [get_of_mem m1 hnd k1 v hmem, get_of_mem m2 hnd2 k1 v (hp.mem_iff.1 hmem)]

theorem keys_perm (m1 m2 : Table) (hp : m1.Perm m2) (k : Str) :
    k ∈ m1.keys ↔ k ∈ m2.keys :=
  (hp.map Prod.fst).mem_iff

/-- Adding an entry under a new key leaves the values of the other keys as they are. -/
theorem get_insert (l1 l2 : Table) (k v j : Str) (hne : j ≠ k) :
    Table.get (l1 ++ (k, v) :: l2) j = Table.get (l1 ++ l2) j := by
  induction l1 with
  | nil =>
    have hb : (j == k) = false := by simpa using hne
    simp [Table.get, List.lookup, hb]
  | cons p l1 ih =>
    obtain ⟨k0, v0⟩ := p
    simp only [Table.get, List.cons_append, List.lookup] at ih ⊢
    cases (j == k0)
    · exact ih
    · rfl

theorem get_insert_self (l1 l2 : Table) (k v : Str) (hk : k ∉ Table.keys (l1 ++ l2)) :
    Table.get (l1 ++ (k, v) :: l2) k = v := by
  induction l1 with
  | nil => simp [Table.get, List.lookup]
  | cons p l1 ih =>
    obtain ⟨k0, v0⟩ := p
    have hk2 : ¬ k = k0 ∧ k ∉ Table.keys (l1 ++ l2) := by
      simpa [Table.keys, not_or] using hk
    have hb : (k == k0) = false := by simpa using hk2.1
    have ih2 := ih hk2.2
    simp only [Table.get, List.cons_append, List.lookup, hb] at ih2 ⊢
    exact ih2

theorem keys_insert (l1 l2 : Table) (k v j : Str) :
    j ∈ Table.keys (l1 ++ (k, v) :: l2) ↔ j = k ∨ j ∈ Table.keys (l1 ++ l2) := by
  simp only [Table.keys, List.map_append, List.map_cons, List.mem_append, List.mem_cons]
  tauto

end Parser

/-! ## Shape of every result -/

namespace Parser

open Regexp

/-- Every call of `Parse` returns, and its issue, path and query are those of the
issue-then-path step on some remainder. -/
theorem parse_closed (repoMap userMap : Table) (input : Str) :
    ∃ u o n m q, Parse repoMap userMap input =
      some ⟨u, m, (issuePath q).1, (issuePath q).2.1, (issuePath q).2.2, o, n⟩ := by
  obtain ⟨⟨o, n, m, q⟩, he⟩ := extractRepo_isSome repoMap input
  by_cases hn : n = []
  · subst hn
    obtain ⟨⟨u, m2, q2⟩, hu⟩ := extractUser_isSome userMap input
    exact ⟨u, u, [], m2, q2, parse_of_user repoMap userMap input o m q u m2 q2 he hu⟩
  · exact ⟨[], o, n, m, q, parse_of_repo repoMap userMap input o n m q he hn⟩

theorem char_eq_of_toNat {c : Char} {n : Nat} (h : c.toNat = n) : c = Char.ofNat n := by
  rw [← h, Char.ofNat_toNat]

/-- The closed form of an issue number agrees with the wording of the specification. -/
theorem isIssueNumber_iff (d : Str) : isIssueNumber d = true ↔ IsIssueNumeral d := by
  cases d with
  | nil => simp [isIssueNumber, IsIssueNumeral]
  | cons c cs =>
    simp only [isIssueNumber, Bool.and_eq_true, List.all_eq_true, IsIssueNumeral,
      List.mem_cons, List.head?_cons]
    constructor
    · rintro ⟨hc, hcs⟩
      refine ⟨List.cons_ne_nil _ _, ?_, ?_⟩
      · intro x hx
        rcases hx with rfl | hx
        · exact isDigit_of_isDigit19 hc
        · exact hcs x hx
      · intro h0
        cases h0
        exact absurd hc (by decide)
    · rintro ⟨_, hall, h0⟩
      refine ⟨?_, fun x hx => hall x (Or.inr hx)⟩
      have hr := isDigit_range (hall c (Or.inl rfl))
      have hne : c.toNat ≠ 48 := by
        intro h48
        apply h0
        rw [char_eq_of_toNat h48]
      have h1 : 49 ≤ c.toNat := by omega
      simp [isDigit19, h1, hr.2]

theorem isPath_spec {q : Str} (h : isPath q = true) :
    q.head? = some '/' ∧ ∀ x ∈ q, isSpace x = false := by
  cases q with
  | nil => simp [isPath] at h
  | cons c cs =>
    simp only [isPath, Bool.and_eq_true, beq_iff_eq, List.all_eq_true] at h
    obtain ⟨rfl, hcs⟩ := h
    refine ⟨rfl, fun x hx => ?_⟩
    rcases List.mem_cons.1 hx with rfl | hx
    · decide
    · simpa [isNonSpace] using hcs x hx

/-- The issue and the path of the issue-then-path step are empty or well formed. -/
theorem issuePath_wellformed (q : Str) :
    ((issuePath q).1 = [] ∨ IsIssueNumeral (issuePath q).1) ∧
    ((issuePath q).2.1 = [] ∨
      ((issuePath q).2.1.head? = some '/' ∧ ∀ x ∈ (issuePath q).2.1, isSpace x = false)) := by
  unfold issuePath
  by_cases h : isIssueNumber (stripHash q) = true
  · rw [if_pos h]
    exact ⟨Or.inr ((isIssueNumber_iff _).1 h), Or.inl rfl⟩
  · by_cases hp : isPath q = true
    · rw [if_neg h, if_pos hp]
      exact ⟨Or.inl rfl, Or.inr (isPath_spec hp)⟩
    · rw [if_neg h, if_neg hp]
      exact ⟨Or.inl rfl, Or.inl rfl⟩

end Parser

/-! ## The claims, continued -/

namespace Parser

open Regexp

/-- C11, amended. Well-formedness of the fields. For every pair of tables and every input,
`Parse` returns a result whose `Issue` is empty or a non-empty string of decimal digits
whose first digit is not `0`, and whose `Path` is empty or a string that starts with a slash
and has none of the five characters of the class `\s` of the pattern (tab, line feed, form
feed, carriage return, space). -/
theorem parse_fields_wellformed (repoMap userMap : Table) (input : Str) :
    ∃ r, Parse repoMap userMap input = some r ∧
      (r.Issue = [] ∨ (r.Issue ≠ [] ∧ (∀ x ∈ r.Issue, isDigit x = true) ∧
        r.Issue.head? ≠ some '0')) ∧
      (r.Path = [] ∨ (r.Path.head? = some '/' ∧ ∀ x ∈ r.Path, isSpace x = false)) := by
  obtain ⟨u, o, n, m, q, h⟩ := parse_closed repoMap userMap input
  exact ⟨_, h, issuePath_wellformed q⟩

/-- C12. The annotation of `NewResult` is the reference rendering of the specification:
with a repo shorthand, the shorthand and `#` and the issue if there is one, in brackets after
a space; otherwise with a user shorthand, that shorthand in brackets; otherwise empty. The
two examples of the specification are `" (zw#5)"` and `" (gh)"`. -/
theorem newResult_annotation_spec :
    (∀ r : PkgParser.NewResult,
       PkgParser.NewResult.Annotation r = annotationSpec r.RepoShorthand r.UserShorthand r.Issue) ∧
     PkgParser.NewResult.Annotation
        { User := [], Name := [], UserShorthand := [], RepoShorthand := "zw".toList,
          Issue := "5".toList, Path := [], Query := [] } = " (zw#5)".toList ∧
     PkgParser.NewResult.Annotation
        { User := [], Name := [], UserShorthand := "gh".toList, RepoShorthand := [],
          Issue := [], Path := [], Query := [] } = " (gh)".toList := by
  refine ⟨fun r => ?_, by decide, by decide⟩
  have hlen : ∀ s : Str, (s.length > 0) ↔ s ≠ [] := fun s => by
    cases s <;> simp
  unfold PkgParser.NewResult.Annotation annotationSpec PkgParser.NewResult.HasIssue
  simp only [hlen, decide_eq_true_eq]

/-- C13 fails on `parser.Result`: with the user shorthand `gh` and the input `gh 5`, `Parse`
binds `Match` from the user table and the issue `5`, and the annotation is `" (gh#5)"`, not
`" (gh)"`. -/
theorem parse_user_annotation_shows_issue :
    ∃ r, Parse [] [("gh".toList, "octocat".toList)] "gh 5".toList = some r ∧
      extractRepo [] "gh 5".toList = some ([], [], [], "gh 5".toList) ∧
      r.Match = "gh".toList ∧ r.User = "octocat".toList ∧ r.Issue = "5".toList ∧
       Result.Annotation r = " (gh#5)".toList ∧
       Result.Annotation r ≠ " (".toList ++ r.Match ++ ")".toList :=
  ⟨⟨"octocat".toList, "gh".toList, "5".toList, [], [], "octocat".toList, []⟩,
    by decide, by decide, by decide, by decide, by decide, by decide, by decide⟩

/-- C14. `Parse` never fails. For every repo table, user table and input, `Parse` returns a
result, and so do `extractRepo`, `extractUser`, `extractIssue` and `extractPath` on every
argument: no index and no slice bound is out of range. -/
theorem parse_total (repoMap userMap : Table) (input : Str) :
    (∃ r, Parse repoMap userMap input = some r) ∧
    (∃ r, extractRepo repoMap input = some r) ∧
    (∃ r, extractUser userMap input = some r) ∧
    (∀ q, ∃ r, extractIssue q = some r) ∧
    (∀ q, ∃ r, extractPath q = some r) := by
  obtain ⟨u, o, n, m, q, h⟩ := parse_closed repoMap userMap input
  exact ⟨⟨_, h⟩, extractRepo_isSome repoMap input, extractUser_isSome userMap input,
    fun q => ⟨_, extractIssue_eq q⟩, fun q => ⟨_, extractPath_eq q⟩⟩

/-- Witness of C14: an empty input, an empty key, an empty value and a value without a
slash. -/
theorem parse_total_witness :
    (∃ r, Parse [([], []), ("x".toList, "novalue".toList)] [([], [])] [] = some r) ∧
    Parse [([], []), ("x".toList, "novalue".toList)] [([], [])] [] =
      some { User := [], Match := [], Issue := [], Path := [], Query := [], owner := [],
             name := [] } :=
  ⟨(parse_total [([], []), ("x".toList, "novalue".toList)] [([], [])] []).1, by decide⟩

end Parser

namespace Parser

open Regexp

/-- C15. Malformed entries of the repo table are ignored. Adding, anywhere in the
enumeration of the repo table, an entry whose key is new and whose value has no slash
changes neither the result of `extractRepo` nor the result of `Parse`. -/
theorem parse_malformed_entry_ignored (l1 l2 userMap : Table) (k v input : Str)
    (hk : k ∉ Table.keys (l1 ++ l2)) (hv : '/' ∉ v) :
    Parse (l1 ++ (k, v) :: l2) userMap input = Parse (l1 ++ l2) userMap input ∧
    extractRepo (l1 ++ (k, v) :: l2) input = extractRepo (l1 ++ l2) input := by
  have hne : ∀ j ∈ Table.keys (l1 ++ l2), j ≠ k := fun j hj hjk => hk (hjk ▸ hj)
  have he : extractRepo (l1 ++ (k, v) :: l2) input = extractRepo (l1 ++ l2) input := by
    apply extractRepo_congr
    · intro j hj _ hslash
      by_cases hjk : j = k
      · subst hjk
        rw [get_insert_self l1 l2 j v hk] at hslash
        exact absurd hslash hv
      · rcases (keys_insert l1 l2 k v j).1 hj with h | h
        · exact absurd h hjk
        · exact ⟨h, (get_insert l1 l2 k v j hjk).symm⟩
    · intro j hj _ _
      exact ⟨(keys_insert l1 l2 k v j).2 (Or.inr hj), get_insert l1 l2 k v j (hne j hj)⟩
  exact ⟨parse_congr _ _ userMap userMap input he rfl, he⟩

/-- Witness of C15: the malformed entry `ab` does not stop the shorter valid key `a`. -/
theorem parse_malformed_entry_ignored_witness :
    Parse [("ab".toList, "bad".toList), ("a".toList, "o/n".toList)] [] "ab 1".toList =
      some { User := [], Match := "a".toList, Issue := [], Path := [], Query := "b 1".toList,
             owner := "o".toList, name := "n".toList } ∧
    Parse ([] ++ ("ab".toList, "bad".toList) :: [("a".toList, "o/n".toList)]) [] "ab 1".toList =
      Parse ([] ++ [("a".toList, "o/n".toList)]) [] "ab 1".toList :=
  ⟨by decide,
    (parse_malformed_entry_ignored [] [("a".toList, "o/n".toList)] [] "ab".toList "bad".toList
      "ab 1".toList (by decide) (by decide)).1⟩

/-- C16. The result does not depend on the order in which the tables are enumerated. For
two enumerations of a repo table with distinct keys and two enumerations of a user table
with distinct keys, `Parse` returns the same result on every input. -/
theorem parse_enumeration_independent (r1 r2 u1 u2 : Table) (input : Str)
    (hr : r1.Perm r2) (hu : u1.Perm u2) (hrn : r1.keys.Nodup) (hun : u1.keys.Nodup) :
    Parse r1 u1 input = Parse r2 u2 input := by
  apply parse_congr
  · apply extractRepo_congr
    · intro k hk _ _
      exact ⟨(keys_perm r1 r2 hr k).1 hk, get_perm r1 r2 hr hrn k hk⟩
    · intro k hk _ _
      have hk1 := (keys_perm r1 r2 hr k).2 hk
      exact ⟨hk1, (get_perm r1 r2 hr hrn k hk1).symm⟩
  · apply extractUser_congr
    · intro k hk _
      exact ⟨(keys_perm u1 u2 hu k).1 hk, get_perm u1 u2 hu hun k hk⟩
    · intro k hk _
      exact (keys_perm u1 u2 hu k).2 hk

/-- Witness of C16: two tables of two entries each, enumerated in both orders. -/
theorem parse_enumeration_independent_witness :
    Parse [("a".toList, "o/n".toList), ("ab".toList, "p/q".toList)]
        [("g".toList, "u".toList), ("gh".toList, "w".toList)] "ab 1".toList =
      Parse [("ab".toList, "p/q".toList), ("a".toList, "o/n".toList)]
        [("gh".toList, "w".toList), ("g".toList, "u".toList)] "ab 1".toList :=
  parse_enumeration_independent _ _ _ _ "ab 1".toList (List.Perm.swap _ _ _)
    (List.Perm.swap _ _ _) (by decide) (by decide)

theorem stripHash_of_numeral {d : Str} (h : IsIssueNumeral d) : stripHash d = d := by
  cases d with
  | nil => rfl
  | cons c cs =>
    have hd : isDigit c = true := h.2.1 c (List.mem_cons_self _ _)
    have hne : ¬ c = '#' := by
      intro hc
      subst hc
      exact absurd hd (by decide)
    simp [stripHash, hne]

/-- Removing a leading `#` leaves the string itself, or the string after its `#`. -/
theorem stripHash_cases (q : Str) : q = stripHash q ∨ q = '#' :: stripHash q := by
  cases q with
  | nil => exact Or.inl rfl
  | cons c cs =>
    by_cases hc : c = '#'
    · subst hc
      exact Or.inr (by simp [stripHash])
    · exact Or.inl (by simp [stripHash, hc])

/-- C17. The issue pattern matches whole strings only. For a non-empty string `d` of
decimal digits whose first digit is not `0`, `extractIssue q` returns `d` and an empty
remainder exactly when `q` is `d` or `#` followed by `d`; and for a `q` that is of neither
form for any such `d`, it returns an empty issue and `q` unchanged. -/
theorem extractIssue_whole_string (q : Str) :
    (∀ d, IsIssueNumeral d → (extractIssue q = some (d, []) ↔ (q = d ∨ q = '#' :: d))) ∧
    ((¬ ∃ d, IsIssueNumeral d ∧ (q = d ∨ q = '#' :: d)) → extractIssue q = some ([], q)) := by
  rw [extractIssue_eq]
  constructor
  · intro d hd
    constructor
    · intro h
      by_cases hn : isIssueNumber (stripHash q) = true
      · rw [if_pos hn] at h
        simp only [Option.some.injEq, Prod.mk.injEq, and_true] at h
        rw [← h]
        exact stripHash_cases q
      · rw [if_neg hn] at h
        simp only [Option.some.injEq, Prod.mk.injEq] at h
        exact absurd h.1.symm hd.1
    · intro h
      have hs : stripHash q = d := by
        rcases h with rfl | rfl
        · exact stripHash_of_numeral hd
        · simp [stripHash]
      rw [hs, if_pos ((isIssueNumber_iff d).2 hd)]
  · intro h
    by_cases hn : isIssueNumber (stripHash q) = true
    · exact absurd ⟨stripHash q, (isIssueNumber_iff _).1 hn, stripHash_cases q⟩ h
    · rw [if_neg hn]

/-- Witness of C17: `#42` and `42` are issues; a number with text after or before it, a
leading zero, a bare `#` and the empty string are left in the query. -/
theorem extractIssue_whole_string_witness :
    extractIssue "#42".toList = some ("42".toList, []) ∧
    extractIssue "42".toList = some ("42".toList, []) ∧
    extractIssue "42 x".toList = some ([], "42 x".toList) ∧
    extractIssue "x 42".toList = some ([], "x 42".toList) ∧
    extractIssue "042".toList = some ([], "042".toList) ∧
    extractIssue "#".toList = some ([], "#".toList) ∧
    extractIssue [] = some ([], []) :=
  ⟨((extractIssue_whole_string "#42".toList).1 "42".toList
      ⟨by decide, by decide, by decide⟩).2 (Or.inr rfl),
   ((extractIssue_whole_string "42".toList).1 "42".toList
      ⟨by decide, by decide, by decide⟩).2 (Or.inl rfl),
   by decide, by decide, by decide, by decide, by decide⟩

end Parser

namespace Parser

open Regexp

/-- What `rstripNonWord` removes are characters that are not word characters, and what it
keeps ends in a word character. -/
theorem rstripNonWord_spec : ∀ (l : Str),
    ∃ junk, l = rstripNonWord l ++ junk ∧ (∀ x ∈ junk, isWord x = false) ∧
      (∀ w, (rstripNonWord l).getLast? = some w → isWord w = true)
  | [] => ⟨[], rfl, by simp, by simp [rstripNonWord]⟩
  | c :: cs => by
    obtain ⟨junk, h1, h2, h3⟩ := rstripNonWord_spec cs
    cases hr : rstripNonWord cs with
    | nil =>
      rw [hr] at h1 h3
      by_cases hw : isWord c = true
      · refine ⟨junk, ?_, h2, ?_⟩
        · simp only [rstripNonWord, hr, hw, if_true]
          rw [h1]
          rfl
        · intro w hlast
          simp only [rstripNonWord, hr, hw, if_true, List.getLast?_singleton,
            Option.some.injEq] at hlast
          rw [← hlast]
          exact hw
      · refine ⟨c :: cs, ?_, ?_, ?_⟩
        · simp [rstripNonWord, hr, hw]
        · intro x hx
          rcases List.mem_cons.1 hx with rfl | hx
          · simpa using hw
          · rw [h1] at hx
            exact h2 x (by simpa using hx)
        · simp [rstripNonWord, hr, hw]
    | cons d ds =>
      rw [hr] at h1 h3
      refine ⟨junk, ?_, h2, ?_⟩
      · simp only [rstripNonWord, hr]
        rw [List.cons_append, ← h1]
      · intro w hlast
        simp only [rstripNonWord, hr] at hlast
        exact h3 w (by simpa using hlast)

theorem rstripNonWord_of_nonword : ∀ (l : Str), (∀ x ∈ l, isWord x = false) →
    rstripNonWord l = []
  | [], _ => rfl
  | c :: cs, h => by
    have ih := rstripNonWord_of_nonword cs (fun x hx => h x (List.mem_cons_of_mem _ hx))
    simp [rstripNonWord, ih, h c (List.mem_cons_self _ _)]

theorem head_dropWhile_not (p : Char → Bool) : ∀ (l : Str) (x : Char),
    (l.dropWhile p).head? = some x → p x = false
  | [], x, h => by simp at h
  | c :: cs, x, h => by
    by_cases hc : p c = true
    · rw [List.dropWhile_cons_of_pos hc] at h
      exact head_dropWhile_not p cs x h
    · have hc2 : p c = false := by simpa using hc
      rw [List.dropWhile_cons_of_neg hc] at h
      simp only [List.head?_cons, Option.some.injEq] at h
      rw [← h]
      exact hc2

/-- A literal match ends at a word boundary: its name ends in a word character, and what
follows the name in the input does not start with one. -/
theorem literalRepo_boundary {input o n : Str} (h : literalRepo input = some (o, n)) :
    (∃ w, n.getLast? = some w ∧ isWord w = true) ∧
    ∃ t, input = o ++ '/' :: n ++ t ∧ ∀ x, t.head? = some x → isWord x = false := by
  cases input with
  | nil => simp [literalRepo] at h
  | cons c cs =>
    simp only [literalRepo] at h
    split at h
    · split at h
      · exact Option.noConfusion h
      next s r hd =>
        split at h
        next hs =>
          split at h
          · exact Option.noConfusion h
          next n0 ns hr =>
            have hs : s = '/' := by simpa using hs
            subst hs
            simp only [Option.some.injEq, Prod.mk.injEq] at h
            obtain ⟨rfl, rfl⟩ := h
            obtain ⟨junk, hj1, hj2, hj3⟩ := rstripNonWord_spec (List.takeWhile isNameChar r)
            rw [hr] at hj1 hj3
            have hrun := List.takeWhile_append_dropWhile isNameChar r
            have hcs := List.takeWhile_append_dropWhile isAlnumDash cs
            rw [hd] at hcs
            refine ⟨?_, junk ++ List.dropWhile isNameChar r, ?_, ?_⟩
            · cases hl : (n0 :: ns).getLast? with
              | none => simp at hl
              | some w => exact ⟨w, rfl, hj3 w hl⟩
            · have hr2 : r = (n0 :: ns) ++ (junk ++ List.dropWhile isNameChar r) := by
                rw [← List.append_assoc, ← hj1, hrun]
              have hcs2 := congrArg (fun z => List.takeWhile isAlnumDash cs ++ '/' :: z) hr2
              rw [List.cons_append]
              congr 1
              exact hcs.symm.trans (hcs2.trans (by simp))
            · intro x hx
              cases junk with
              | nil =>
                rw [List.nil_append] at hx
                cases hb : isWord x with
                | false => rfl
                | true =>
                  have hnc := head_dropWhile_not isNameChar r x hx
                  simp [isNameChar, hb] at hnc
              | cons j js =>
                simp only [List.cons_append, List.head?_cons, Option.some.injEq] at hx
                rw [← hx]
                exact hj2 j (List.mem_cons_self _ _)
        · exact Option.noConfusion h
    · exact Option.noConfusion h

/-- Before the first slash the owner run either reaches the slash or stops earlier. -/
theorem dropWhile_append_slash (r : Str) : ∀ (cs : Str), '/' ∉ cs →
    (cs ++ '/' :: r).dropWhile isAlnumDash = '/' :: r ∨
    ∃ s t, (cs ++ '/' :: r).dropWhile isAlnumDash = s :: t ∧ s ≠ '/'
  | [], _ => Or.inl (by
      have : isAlnumDash '/' = false := by decide
      simp [List.dropWhile, this])
  | x :: xs, h => by
    have hx : x ≠ '/' := fun hx => h (by simp [hx])
    have hxs : '/' ∉ xs := fun hm => h (List.mem_cons_of_mem _ hm)
    by_cases hp : isAlnumDash x = true
    · rw [List.cons_append, List.dropWhile_cons_of_pos hp]
      exact dropWhile_append_slash r xs hxs
    · rw [List.cons_append, List.dropWhile_cons_of_neg hp]
      exact Or.inr ⟨x, _, rfl, hx⟩

/-- The literal pattern does not match when the name run has no word character. -/
theorem literalRepo_no_word (o r : Str) (ho : '/' ∉ o)
    (hr : ∀ x ∈ r.takeWhile isNameChar, isWord x = false) :
    literalRepo (o ++ '/' :: r) = none := by
  cases o with
  | nil =>
    have : isAlnum '/' = false := by decide
    simp [literalRepo, this]
  | cons c cs =>
    have hcs : '/' ∉ cs := fun hm => ho (List.mem_cons_of_mem _ hm)
    by_cases hc : isAlnum c = true
    · simp only [List.cons_append, literalRepo, hc, if_true]
      rcases dropWhile_append_slash r cs hcs with h | ⟨s, t, h, hs⟩
      · rw [h]
        simp [rstripNonWord_of_nonword _ hr]
      · rw [h]
        simp [hs]
    · simp [literalRepo, hc]

end Parser

namespace Parser

open Regexp

/-- C18. The literal pass stops at a word boundary. With no hit in the repo table, a name
that `extractRepo` binds comes with an empty match, ends in a word character, and is
followed in the input by no word character; what follows it, trailing dots and dashes
included, goes to the query. And an input whose run of name characters after the first
slash has no word character binds no repo: it is returned whole as the query. -/
theorem extractRepo_word_boundary :
    (∀ (repoMap : Table) (input o n m q : Str),
      (∀ k ∈ repoMap.keys, ¬ (k <+: input ∧ '/' ∈ repoMap.get k)) →
      extractRepo repoMap input = some (o, n, m, q) → n ≠ [] →
      m = [] ∧ (∃ w, n.getLast? = some w ∧ isWord w = true) ∧
      ∃ t, input = o ++ '/' :: n ++ t ∧ (∀ x, t.head? = some x → isWord x = false) ∧
        q = TrimLeft t) ∧
    (∀ (repoMap : Table) (o r : Str),
      (∀ k ∈ repoMap.keys, ¬ (k <+: o ++ '/' :: r ∧ '/' ∈ repoMap.get k)) →
      '/' ∉ o → (∀ x ∈ r.takeWhile isNameChar, isWord x = false) →
      extractRepo repoMap (o ++ '/' :: r) = some ([], [], [], o ++ '/' :: r)) := by
  constructor
  · intro repoMap input o n m q hno h hn
    rw [extractRepo_literal repoMap input (repoLoop_none repoMap input _
      (fun k hk => hno k ((mem_sortReverse k _).1 hk)))] at h
    cases hl : literalRepo input with
    | none =>
      rw [hl] at h
      simp only [Option.some.injEq, Prod.mk.injEq] at h
      exact absurd h.2.1.symm hn
    | some p =>
      obtain ⟨o2, n2⟩ := p
      rw [hl] at h
      simp only [Option.some.injEq, Prod.mk.injEq] at h
      obtain ⟨rfl, rfl, rfl, hq⟩ := h
      obtain ⟨hw, t, ht, hnext⟩ := literalRepo_boundary hl
      refine ⟨rfl, hw, t, ht, hnext, ?_⟩
      rw [← hq, ht, length_literal]
  · intro repoMap o r hno ho hr
    rw [extractRepo_literal repoMap _ (repoLoop_none repoMap _ _
      (fun k hk => hno k ((mem_sortReverse k _).1 hk))), literalRepo_no_word o r ho hr]

/-- Witness of C18: on `o/n.- x` the name is `n` and the dot and the dash stay in the query;
the input of `o`, a slash and a dash binds no repo. -/
theorem extractRepo_word_boundary_witness :
    extractRepo [] "o/n.- x".toList = some ("o".toList, "n".toList, [], ".- x".toList) ∧
    (∃ t, "o/n.- x".toList = "o".toList ++ '/' :: "n".toList ++ t ∧
      (∀ x, t.head? = some x → isWord x = false) ∧ ".- x".toList = TrimLeft t) ∧
    extractRepo [] ("o".toList ++ '/' :: "-".toList) =
      some ([], [], [], "o".toList ++ '/' :: "-".toList) :=
  ⟨by decide,
   (extractRepo_word_boundary.1 [] "o/n.- x".toList "o".toList "n".toList [] ".- x".toList
      (by simp [Table.keys]) (by decide) (by decide)).2.2,
   extractRepo_word_boundary.2 [] "o".toList "-".toList (by simp [Table.keys]) (by decide)
      (by decide)⟩

theorem afterSep_append (sep : Char) (n : Str) : ∀ (o : Str), sep ∉ o →
    afterSep sep (o ++ sep :: n) = some n
  | [], _ => by simp [afterSep]
  | c :: cs, h => by
    have hc : ¬ c = sep := fun hc => h (by simp [hc])
    have hcs : sep ∉ cs := fun hm => h (List.mem_cons_of_mem _ hm)
    simp only [List.cons_append, afterSep, beq_iff_eq, hc, if_false]
    exact afterSep_append sep n cs hcs

/-- Splitting owner, slash, name at the first slash gives the owner and the name back. -/
theorem splitN2_append (o n : Str) (h : '/' ∉ o) : SplitN2 (o ++ '/' :: n) '/' = [o, n] := by
  unfold SplitN2
  rw [afterSep_append '/' n o h]
  have ht : (o ++ '/' :: n).takeWhile (fun c => c != '/') = o :=
    takeWhile_append_cons_of_not n
      (fun x hx => by
        have : ¬ x = '/' := fun hxs => h (hxs ▸ hx)
        simpa using this)
      (by simp)
  simp only [ht]

theorem splitN2_of_not_mem (s : Str) (h : '/' ∉ s) : SplitN2 s '/' = [s] := by
  unfold SplitN2
  rw [(afterSep_none_iff '/' s).2 h]

theorem length_pos_of_ne_nil {s : Str} (h : s ≠ []) : decide (s.length > 0) = true := by
  cases s with
  | nil => exact absurd rfl h
  | cons c cs => simp

/-- C19. The round trip of `SetRepo` and `Repo`. For a non-empty owner without a slash and a
non-empty name, `SetRepo` of owner, slash, name on any value of `parser.Result`, of
`NewResult` and of the `Result` of `pkg/parser` returns a value whose `Repo` is that string
and whose `HasRepo` is true. -/
theorem setRepo_repo_roundtrip (o n : Str) (ho : o ≠ []) (hs : '/' ∉ o) (hn : n ≠ [])
    (r : Parser.Result) (nr : PkgParser.NewResult) (pr : PkgParser.Result) :
    (∃ r2, Parser.Result.SetRepo r (o ++ '/' :: n) = some r2 ∧
      Parser.Result.Repo r2 = o ++ '/' :: n ∧ Parser.Result.HasRepo r2 = true) ∧
    (∃ r2, PkgParser.NewResult.SetRepo nr (o ++ '/' :: n) = some r2 ∧
      PkgParser.NewResult.Repo r2 = o ++ '/' :: n ∧ PkgParser.NewResult.HasRepo r2 = true) ∧
    (∃ r2, PkgParser.Result.SetRepo pr (o ++ '/' :: n) = some r2 ∧
      PkgParser.Result.Repo r2 = o ++ '/' :: n ∧ PkgParser.Result.HasRepo r2 = true) := by
  have hsplit := splitN2_append o n hs
  have hlo := length_pos_of_ne_nil ho
  have hln := length_pos_of_ne_nil hn
  refine ⟨⟨{ r with owner := o, name := n }, ?_, ?_, ?_⟩,
    ⟨{ nr with User := o, Name := n }, ?_, ?_, ?_⟩,
    ⟨{ pr with User := o, Name := n }, ?_, ?_, ?_⟩⟩
  · simp [Parser.Result.SetRepo, hsplit]
  · simp [Parser.Result.Repo, Parser.Result.HasRepo, hln]
  · simp [Parser.Result.HasRepo, hln]
  · simp [PkgParser.NewResult.SetRepo, hsplit]
  · simp [PkgParser.NewResult.Repo, PkgParser.NewResult.HasRepo, hlo, hln]
  · simp [PkgParser.NewResult.HasRepo, hlo, hln]
  · simp [PkgParser.Result.SetRepo, hsplit]
  · simp [PkgParser.Result.Repo, PkgParser.Result.HasRepo, hlo, hln]
  · simp [PkgParser.Result.HasRepo, hlo, hln]

/-- Witness of C19: `zerowidth/dot/files`, a name with a slash of its own. -/
theorem setRepo_repo_roundtrip_witness :
    (∃ r2, Parser.Result.SetRepo ⟨[], [], [], [], [], "x".toList, "y".toList⟩
        ("zerowidth".toList ++ '/' :: "dot/files".toList) = some r2 ∧
      Parser.Result.Repo r2 = "zerowidth".toList ++ '/' :: "dot/files".toList ∧
      Parser.Result.HasRepo r2 = true) ∧
    PkgParser.Result.SetRepo ⟨[], [], [], [], []⟩ "zerowidth/dot/files".toList =
      some ⟨"zerowidth".toList, "dot/files".toList, [], [], []⟩ :=
  ⟨(setRepo_repo_roundtrip "zerowidth".toList "dot/files".toList (by decide) (by decide)
      (by decide) ⟨[], [], [], [], [], "x".toList, "y".toList⟩ ⟨[], [], [], [], [], [], []⟩
      ⟨[], [], [], [], []⟩).1,
   by decide⟩

/-- C20. Totality of `SetRepo`. For every string, `SetRepo` of the `Result` of `pkg/parser`
returns exactly when the string has a slash (without one its index `parts[1]` is out of
range); `SetRepo` of `NewResult` and of `parser.Result` return for every string, and the
latter leaves the result as it is when the string has no slash. -/
theorem setRepo_total (repo : Str) :
    (∀ pr : PkgParser.Result, (PkgParser.Result.SetRepo pr repo).isSome = true ↔ '/' ∈ repo) ∧
    (∀ nr : PkgParser.NewResult, ∃ r2, PkgParser.NewResult.SetRepo nr repo = some r2) ∧
    (∀ r : Parser.Result, ∃ r2, Parser.Result.SetRepo r repo = some r2 ∧
      ('/' ∉ repo → r2 = r ∧ r2.owner = r.owner ∧ r2.name = r.name)) := by
  by_cases h : '/' ∈ repo
  · obtain ⟨a, b, hsplit, _, _⟩ := splitN2_of_mem repo '/' h
    refine ⟨fun pr => ?_, fun nr => ?_, fun r => ?_⟩
    · simp [PkgParser.Result.SetRepo, hsplit, h]
    · exact ⟨{ nr with User := a, Name := b }, by simp [PkgParser.NewResult.SetRepo, hsplit]⟩
    · exact ⟨{ r with owner := a, name := b }, by simp [Parser.Result.SetRepo, hsplit],
        fun hn => absurd h hn⟩
  · have hsplit := splitN2_of_not_mem repo h
    refine ⟨fun pr => ?_, fun nr => ?_, fun r => ?_⟩
    · simp [PkgParser.Result.SetRepo, hsplit, h]
    · exact ⟨{ nr with User := repo }, by simp [PkgParser.NewResult.SetRepo, hsplit]⟩
    · exact ⟨r, by simp [Parser.Result.SetRepo, hsplit], fun _ => ⟨rfl, rfl, rfl⟩⟩

end Parser

/-! ## The issue-then-path step, in the words of the specification -/

namespace Parser

open Regexp

/-- The closed form of a path agrees with its wording: a slash first, no character of the
class `\s` anywhere. -/
theorem isPath_iff (q : Str) :
    isPath q = true ↔ (q.head? = some '/' ∧ ∀ x ∈ q, isSpace x = false) := by
  constructor
  · exact isPath_spec
  · rintro ⟨hh, hall⟩
    cases q with
    | nil => simp at hh
    | cons c cs =>
      simp only [List.head?_cons, Option.some.injEq] at hh
      subst hh
      simp only [isPath, beq_self_eq_true, Bool.true_and, List.all_eq_true]
      intro x hx
      simp [isNonSpace, hall x (List.mem_cons_of_mem _ hx)]

/-- The three cases of the issue-then-path step: an issue number with or without `#`; else a
path; else the remainder is left as the query. -/
theorem issuePath_spec (q : Str) :
    (∀ d, IsIssueNumeral d → (q = d ∨ q = '#' :: d) → issuePath q = (d, [], [])) ∧
    ((¬ ∃ d, IsIssueNumeral d ∧ (q = d ∨ q = '#' :: d)) →
      ((q.head? = some '/' ∧ ∀ x ∈ q, isSpace x = false) → issuePath q = ([], q, [])) ∧
      (¬ (q.head? = some '/' ∧ ∀ x ∈ q, isSpace x = false) → issuePath q = ([], [], q))) := by
  constructor
  · intro d hd h
    have hs : stripHash q = d := by
      rcases h with rfl | rfl
      · exact stripHash_of_numeral hd
      · simp [stripHash]
    unfold issuePath
    rw [hs, if_pos ((isIssueNumber_iff d).2 hd)]
  · intro h
    have hn : ¬ isIssueNumber (stripHash q) = true := fun hn =>
      h ⟨stripHash q, (isIssueNumber_iff _).1 hn, stripHash_cases q⟩
    unfold issuePath
    rw [if_neg hn]
    constructor
    · intro hp
      rw [if_pos ((isPath_iff q).2 hp)]
    · intro hp
      rw [if_neg (fun hq => hp ((isPath_iff q).1 hq))]

end Parser

/-! ## The user-shorthand pass, owner and name, whitespace in a path -/

namespace Parser

open Regexp

/-- C3. The user-shorthand pass. When `extractRepo` returns an empty name and some key of
the user table is a prefix of the input, `Parse` returns a result whose `Match` is a key of
the user table that is a prefix of the input and at least as long as every other such key,
whose `User` is the value of that key, and whose name is empty (`HasRepo` is false, `Repo`
is empty). The input is that key, a run of spaces, and a remainder that starts with no
space; the issue, path and query are those of the issue-then-path extraction on the
remainder: an issue number with or without `#` is the issue; otherwise a remainder that
starts with a slash and has no character of `\s` is the path; otherwise the remainder is
the query. -/
theorem parse_user_shorthand (repoMap userMap : Table) (input : Str)
    (hrepo : ∃ o m q, extractRepo repoMap input = some (o, [], m, q))
    (hkey : ∃ k ∈ userMap.keys, k <+: input) :
    ∃ k r n q, Parse repoMap userMap input = some r ∧
      k ∈ userMap.keys ∧ k <+: input ∧
      (∀ j ∈ userMap.keys, j <+: input → j.length ≤ k.length) ∧
      r.User = userMap.get k ∧ r.Match = k ∧ r.name = [] ∧ r.HasRepo = false ∧ r.Repo = [] ∧
      input = k ++ (List.replicate n ' ' ++ q) ∧ q.head? ≠ some ' ' ∧
      (do
        let (issue, query) ← extractIssue q
        let (path, query) ← if issue == [] then extractPath query else pure ([], query)
        pure (issue, path, query)) = some (r.Issue, r.Path, r.Query) ∧
      (∀ d, IsIssueNumeral d → (q = d ∨ q = '#' :: d) →
        r.Issue = d ∧ r.Path = [] ∧ r.Query = []) ∧
      ((¬ ∃ d, IsIssueNumeral d ∧ (q = d ∨ q = '#' :: d)) →
        ((q.head? = some '/' ∧ ∀ x ∈ q, isSpace x = false) →
          r.Issue = [] ∧ r.Path = q ∧ r.Query = []) ∧
        (¬ (q.head? = some '/' ∧ ∀ x ∈ q, isSpace x = false) →
          r.Issue = [] ∧ r.Path = [] ∧ r.Query = q)) := by
  obtain ⟨o, m, q0, he⟩ := hrepo
  obtain ⟨k, hk, hpre, hmax⟩ := exists_longest (fun k => k <+: input) userMap.keys hkey
  have hu := extractUser_of_longest userMap input k hk hpre hmax
  obtain ⟨⟨n, hn⟩, hq⟩ := trimLeft_spec (input.drop k.length)
  have hspec := issuePath_spec (TrimLeft (input.drop k.length))
  refine ⟨k, _, n, TrimLeft (input.drop k.length),
    parse_of_user repoMap userMap input o m q0 _ _ _ he hu, hk, hpre, hmax,
    rfl, rfl, rfl, rfl, rfl, ?_, hq, ?_, ?_, ?_⟩
  · rw [← hn]
    exact (List.prefix_iff_eq_append.1 hpre).symm
  · have := issuePath_bind (fun i p r => (i, p, r)) (TrimLeft (input.drop k.length))
    simpa using this
  · intro d hd h
    show (issuePath _).1 = d ∧ (issuePath _).2.1 = [] ∧ (issuePath _).2.2 = []
    rw [hspec.1 d hd h]
    exact ⟨rfl, rfl, rfl⟩
  · intro h
    constructor
    · intro hp
      show (issuePath _).1 = [] ∧ (issuePath _).2.1 = _ ∧ (issuePath _).2.2 = []
      rw [(hspec.2 h).1 hp]
      exact ⟨rfl, rfl, rfl⟩
    · intro hp
      show (issuePath _).1 = [] ∧ (issuePath _).2.1 = [] ∧ (issuePath _).2.2 = _
      rw [(hspec.2 h).2 hp]
      exact ⟨rfl, rfl, rfl⟩

/-- Witness of C3: the user table and the input of the specification, and the same key
followed by two spaces and an issue. -/
theorem parse_user_shorthand_witness :
    Parse [] [("gh".toList, "octocat".toList)] "gh".toList =
      some { User := "octocat".toList, Match := "gh".toList, Issue := [], Path := [],
             Query := [], owner := "octocat".toList, name := [] } ∧
    Parse [] [("gh".toList, "octocat".toList)] "gh  #42".toList =
      some { User := "octocat".toList, Match := "gh".toList, Issue := "42".toList, Path := [],
             Query := [], owner := "octocat".toList, name := [] } ∧
    ∃ k r n q, Parse [] [("gh".toList, "octocat".toList)] "gh  #42".toList = some r ∧
      k ∈ Table.keys [("gh".toList, "octocat".toList)] ∧ k <+: "gh  #42".toList ∧
      "gh  #42".toList = k ++ (List.replicate n ' ' ++ q) ∧ q.head? ≠ some ' ' :=
  ⟨by decide, by decide,
    match parse_user_shorthand [] [("gh".toList, "octocat".toList)] "gh  #42".toList
      ⟨[], [], "gh  #42".toList, by decide⟩ ⟨"gh".toList, by decide, by decide⟩ with
    | ⟨k, r, n, q, h1, h2, h3, _, _, _, _, _, _, h10, h11, _⟩ =>
      ⟨k, r, n, q, h1, h2, h3, h10, h11⟩⟩

/-- C9, amended. When no value of the repo table starts with a slash, the result of `Parse`
has owner and name both empty or both non-empty, unless its name is empty and some key of
the user table is a prefix of the input: then `Match` is a longest such key and the owner
is the `User` field, the value of that key. With a name the `User` is empty; without a name
`HasRepo` is false and `Repo` is empty. -/
theorem parse_owner_name (repoMap userMap : Table) (input : Str)
    (hwf : ∀ k ∈ repoMap.keys, (repoMap.get k).head? ≠ some '/') :
    ∃ r, Parse repoMap userMap input = some r ∧
      (r.name ≠ [] → r.owner ≠ [] ∧ r.User = []) ∧
      ((¬ ∃ k ∈ userMap.keys, k <+: input) →
        ((r.owner = [] ∧ r.name = []) ∨ (r.owner ≠ [] ∧ r.name ≠ [])) ∧ r.User = []) ∧
      (r.name = [] → (∃ k ∈ userMap.keys, k <+: input) →
        r.Match ∈ userMap.keys ∧ r.Match <+: input ∧
        (∀ j ∈ userMap.keys, j <+: input → j.length ≤ r.Match.length) ∧
        r.owner = userMap.get r.Match ∧ r.User = userMap.get r.Match) ∧
      (r.name = [] → r.HasRepo = false ∧ r.Repo = []) := by
  obtain ⟨⟨o, n, m, q⟩, he⟩ := extractRepo_isSome repoMap input
  by_cases hn : n = []
  · subst hn
    by_cases hhit : ∃ k ∈ userMap.keys, k <+: input
    · obtain ⟨k, hk, hpre, hmax⟩ := exists_longest (fun k => k <+: input) userMap.keys hhit
      have hu := extractUser_of_longest userMap input k hk hpre hmax
      exact ⟨_, parse_of_user repoMap userMap input o m q _ _ _ he hu,
        fun h => absurd rfl h, fun h => absurd hhit h,
        fun _ _ => ⟨hk, hpre, hmax, rfl, rfl⟩, fun _ => ⟨rfl, rfl⟩⟩
    · have hu := extractUser_none userMap input (userLoop_none userMap input _
        (fun k hk hp => hhit ⟨k, (mem_sortReverse k _).1 hk, hp⟩))
      exact ⟨_, parse_of_user repoMap userMap input o m q _ _ _ he hu,
        fun h => absurd rfl h, fun _ => ⟨Or.inl ⟨rfl, rfl⟩, rfl⟩,
        fun _ h => absurd h hhit, fun _ => ⟨rfl, rfl⟩⟩
  · have ho := extractRepo_owner_ne_nil repoMap input o n m q hwf he hn
    exact ⟨_, parse_of_repo repoMap userMap input o n m q he hn,
      fun _ => ⟨ho, rfl⟩, fun _ => ⟨Or.inr ⟨ho, hn⟩, rfl⟩,
      fun h => absurd h hn, fun h => absurd h hn⟩

/-- Witness of C9 (amended): a repo shorthand with an issue, and a user shorthand. -/
theorem parse_owner_name_witness :
    Parse [("zw".toList, "zerowidth/dotfiles".toList)] [("gh".toList, "octocat".toList)]
        "zw 12".toList =
      some { User := [], Match := "zw".toList, Issue := "12".toList, Path := [], Query := [],
             owner := "zerowidth".toList, name := "dotfiles".toList } ∧
    (∃ r, Parse [("zw".toList, "zerowidth/dotfiles".toList)] [("gh".toList, "octocat".toList)]
        "zw 12".toList = some r ∧
      (r.name ≠ [] → r.owner ≠ [] ∧ r.User = []) ∧
      ((¬ ∃ k ∈ Table.keys [("gh".toList, "octocat".toList)], k <+: "zw 12".toList) →
        ((r.owner = [] ∧ r.name = []) ∨ (r.owner ≠ [] ∧ r.name ≠ [])) ∧ r.User = [])) ∧
    (∃ r, Parse [("zw".toList, "zerowidth/dotfiles".toList)] [("gh".toList, "octocat".toList)]
        "gh x".toList = some r ∧
      (r.name = [] → (∃ k ∈ Table.keys [("gh".toList, "octocat".toList)],
          k <+: "gh x".toList) →
        r.Match ∈ Table.keys [("gh".toList, "octocat".toList)] ∧ r.Match <+: "gh x".toList ∧
        (∀ j ∈ Table.keys [("gh".toList, "octocat".toList)], j <+: "gh x".toList →
          j.length ≤ r.Match.length) ∧
        r.owner = Table.get [("gh".toList, "octocat".toList)] r.Match ∧
        r.User = Table.get [("gh".toList, "octocat".toList)] r.Match)) :=
  ⟨by decide,
   match parse_owner_name [("zw".toList, "zerowidth/dotfiles".toList)]
      [("gh".toList, "octocat".toList)] "zw 12".toList (by decide) with
   | ⟨r, h1, h2, h3, _⟩ => ⟨r, h1, h2, h3⟩,
   match parse_owner_name [("zw".toList, "zerowidth/dotfiles".toList)]
      [("gh".toList, "octocat".toList)] "gh x".toList (by decide) with
   | ⟨r, h1, _, _, h4, _⟩ => ⟨r, h1, h4⟩⟩

/-- C11, as stated, fails: the class `\S` of the path pattern excludes only the five
characters of `\s`, so a path may hold other whitespace. With empty tables the input of a
slash, `a`, a vertical tab (U+000B) and `b` is returned whole as the path, and so is the
same with a no-break space (U+00A0). -/
theorem parse_fields_wellformed_counterexample :
    (∃ r, Parse [] [] ['/', 'a', Char.ofNat 0x0B, 'b'] = some r ∧
      r.Path = ['/', 'a', Char.ofNat 0x0B, 'b'] ∧
      (∃ x ∈ r.Path, isUnicodeSpace x = true) ∧
      ¬ (r.Path = [] ∨ (r.Path.head? = some '/' ∧ ∀ x ∈ r.Path, isUnicodeSpace x = false))) ∧
    (∃ r, Parse [] [] ['/', 'a', Char.ofNat 0xA0, 'b'] = some r ∧
      r.Path = ['/', 'a', Char.ofNat 0xA0, 'b'] ∧
      (∃ x ∈ r.Path, isUnicodeSpace x = true) ∧
      ¬ (r.Path = [] ∨ (r.Path.head? = some '/' ∧ ∀ x ∈ r.Path, isUnicodeSpace x = false))) :=
  ⟨⟨⟨[], [], [], ['/', 'a', Char.ofNat 0x0B, 'b'], [], [], []⟩,
      by decide, by decide, by decide, by decide⟩,
   ⟨⟨[], [], [], ['/', 'a', Char.ofNat 0xA0, 'b'], [], [], []⟩,
      by decide, by decide, by decide, by decide⟩⟩

end Parser
